import Mathlib

/-!
# Layered configuration with cross-source references (package `config`)

A shallow embedding of `config/config.go`: the reference-token parser
(`parseReferenceValue`), the recursive resolver (`getValueByReference`,
`parseReferences`), construction (`NewConfig`), the prefix view (`Of`, `key`)
and the accessors `Get`, `GetString`, `Set`, `SetDefault`, `Exists`.

The key-value stores are `*viper.Viper` values of the viper library.  The
embedding follows viper's own functions on the part of a store that
`config.go` exercises:

* a store has three layers of nested tables (`map[string]any`): the `Set`
  overrides, the loaded configuration and the defaults; when `AutomaticEnv`
  was called the process environment is consulted between the overrides and
  the configuration;
* a key is lower-cased and split at the dots into a path; `Get` walks the
  path through the tables of each layer in turn (`searchMap`,
  `searchIndexableWithPathPrefixes`), returns the first value that is not
  `nil`, which is the sub-table when the path ends on a table, and gives up as
  soon as a layer holds a leaf on the way (`isPathShadowedInDeepMap`,
  `isPathShadowedInAutoEnv`);
* `Set` and `SetDefault` lower-case the keys of a table they are given and
  write it at the end of the path, making a table of every step on the way
  (`deepSearch`);
* `AllKeys` lists the paths of the leaves of the three layers
  (`flattenAndMergeMap`).

Lists are lists of strings, and the letters of keys are taken to be ASCII.

A `*Config` holds a pointer to the primary store, which the resolver mutates
in place and every prefix view shares.  Here the primary store is threaded
explicitly through the operations, and `Source.primary` stands for that
pointer wherever the registry holds it.
-/

namespace Chaki

/-! ## Values and Go maps -/

mutual
/-- The dynamic values behind Go's `any`: `null` is the untyped `nil`, and
`table` is a `map[string]any`. -/
inductive Value where
  | null
  | str (s : String)
  | int (n : Int)
  | bool (b : Bool)
  | strs (l : List String)
  | table (t : Table)
/-- A Go `map[string]any`, as the sequence of its entries. -/
inductive Table where
  | nil
  | cons (k : String) (v : Value) (rest : Table)
end

deriving instance DecidableEq for Value, Table

/-- Go's `m[k]` on a `map[string]any`: `nil` when the key is absent. -/
def Table.get : Table → String → Value
  | Table.nil, _ => Value.null
  | Table.cons k v rest, key => if k = key then v else rest.get key

/-- Go's `m[k] = x` on a `map[string]any`. -/
def Table.set : Table → String → Value → Table
  | Table.nil, key, x => Table.cons key x Table.nil
  | Table.cons k v rest, key, x =>
    if k = key then Table.cons k x rest else Table.cons k v (rest.set key x)

/-- The table with the given entries. -/
def Table.ofList : List (String × Value) → Table
  | [] => Table.nil
  | (k, v) :: rest => Table.cons k v (Table.ofList rest)

/-- A Go `map[string]β` other than a table, as the sequence of its
assignments, newest first. -/
abbrev GoMap (β : Type) := List (String × β)

/-- Go's `m[k] = x`. -/
def GoMap.set {β : Type} (m : GoMap β) (k : String) (x : β) : GoMap β := (k, x) :: m

/-- Go's `m[k]` for a map whose values are pointers: `nil`, here `none`, when
the key is absent. -/
def GoMap.get {β : Type} (m : GoMap (Option β)) (k : String) : Option β :=
  (List.lookup k m).join

/-- Result of running code that may panic or recurse without bound. -/
inductive Outcome (α : Type) where
  | ok (a : α)
  | panic (msg : String)
  | overflow
deriving DecidableEq

/-! ## The viper store -/

/-- ASCII lower-casing of a key (`strings.ToLower`). -/
def lower (s : String) : String := String.mk (s.data.map Char.toLower)

/-- ASCII upper-casing of a key (`strings.ToUpper`). -/
def upper (s : String) : String := String.mk (s.data.map Char.toUpper)

/-- The segments of a text between its dots, at least one. -/
def splitDots : List Char → List (List Char)
  | [] => [[]]
  | c :: cs =>
    if c = '.' then [] :: splitDots cs
    else
      match splitDots cs with
      | seg :: segs => (c :: seg) :: segs
      | [] => [[c]]

/-- Go's `strings.Split(key, v.keyDelim)` with the delimiter `.`. -/
def splitPath (key : String) : List String := (splitDots key.data).map String.mk

/-- Go's `strings.Join(path, v.keyDelim)`. -/
def joinPath : List String → String
  | [] => ""
  | [k] => k
  | k :: rest => k ++ "." ++ joinPath rest

mutual
/-- Viper's `toCaseInsensitiveValue`. -/
def toCaseInsensitiveValue : Value → Value
  | Value.table t => Value.table (copyAndInsensitiviseMap t)
  | Value.null => Value.null
  | Value.str s => Value.str s
  | Value.int n => Value.int n
  | Value.bool b => Value.bool b
  | Value.strs l => Value.strs l
/-- Viper's `copyAndInsensitiviseMap`. -/
def copyAndInsensitiviseMap : Table → Table
  | Table.nil => Table.nil
  | Table.cons k v rest =>
    Table.cons (lower k) (toCaseInsensitiveValue v) (copyAndInsensitiviseMap rest)
end

/-- Viper's `searchMap`: the value at the end of `path`, `nil` when a step is
absent or is no table. -/
def searchMap (source : Table) : List String → Value
  | [] => Value.table source
  | [k] => source.get k
  | k :: rest =>
    match source.get k with
    | Value.table t => searchMap t rest
    | _ => Value.null

/-- Viper's `deepSearch` on all of `path` but its last step, followed by the
assignment of `value` to that last step: a step on the way that is absent or
is no table becomes a new table. -/
def deepSet (m : Table) : List String → Value → Table
  | [], _ => m
  | [k], value => m.set k value
  | k :: rest, value =>
    match m.get k with
    | Value.table t => m.set k (Value.table (deepSet t rest value))
    | _ => m.set k (Value.table (deepSet Table.nil rest value))

/-- Viper's `isPathShadowedInDeepMap`, as the answer whether the returned
text is non-empty: walking the proper prefixes of `path` from the shortest,
the first one whose value is no table decides, `nil` for "not shadowed" and a
leaf for "shadowed". -/
def isPathShadowedInDeepMap : List String → Table → Bool
  | [], _ => false
  | [_], _ => false
  | k :: rest, m =>
    match m.get k with
    | Value.table t => isPathShadowedInDeepMap rest t
    | Value.null => false
    | _ => true

/-- The loop of viper's `searchIndexableWithPathPrefixes` over the prefixes
of `path` of `i` steps and fewer, longest first (`searchMapWithPathPrefixes`
for each); `recur` is the search in a sub-table. -/
def searchPrefixes (recur : Table → List String → Value) (source : Table)
    (path : List String) : Nat → Value
  | 0 => Value.null
  | i + 1 =>
    let next := source.get (lower (joinPath (path.take (i + 1))))
    let val :=
      if i + 1 = path.length then next
      else
        match next with
        | Value.table t => recur t (path.drop (i + 1))
        | _ => Value.null
    if val ≠ Value.null then val else searchPrefixes recur source path i

/-- Viper's `searchIndexableWithPathPrefixes` on tables; `fuel` bounds the
nesting, which the length of the path bounds. -/
def searchIndexableWithPathPrefixes : Nat → Table → List String → Value
  | 0, _, _ => Value.null
  | fuel + 1, source, path =>
    if path = [] then Value.table source
    else searchPrefixes (searchIndexableWithPathPrefixes fuel) source path path.length

/-- The process environment: name and value of each variable. -/
abbrev Environ := List (String × String)

/-- Viper's `getEnv`: `os.LookupEnv`, an empty value counting as unset. -/
def getEnv (E : Environ) (key : String) : Option String :=
  match List.lookup key E with
  | some val => if val = "" then none else some val
  | none => none

/-- Viper's `isPathShadowedInAutoEnv`: whether a proper prefix of `path` is
set in the environment. -/
def isPathShadowedInAutoEnv (E : Environ) (path : List String) : Bool :=
  (List.range (path.length - 1)).any
    (fun i => (getEnv E (upper (joinPath (path.take (i + 1))))).isSome)

/-- A `viper.Viper` store: its layers in decreasing priority. -/
structure Viper where
  override : Table
  automaticEnv : Bool
  config : Table
  defaults : Table
deriving DecidableEq

/-- Go's `viper.New()`. -/
def Viper.New : Viper :=
  { override := Table.nil, automaticEnv := false, config := Table.nil, defaults := Table.nil }

/-- Go's `v.AutomaticEnv()`. -/
def Viper.AutomaticEnv (v : Viper) : Viper := { v with automaticEnv := true }

/-- The stage of viper's `find` on the `Set` overrides: `some x` when the
stage decides on `x`, `none` when the search goes on. -/
def Viper.findOverride (v : Viper) (path : List String) : Option Value :=
  let val := searchMap v.override path
  if val ≠ Value.null then some val
  else if isPathShadowedInDeepMap path v.override then some Value.null
  else none

/-- The stages of viper's `find` on the environment and on the loaded
configuration. -/
def Viper.findEnvConfig (E : Environ) (v : Viper) (lcaseKey : String)
    (path : List String) : Option Value :=
  match (if v.automaticEnv then getEnv E (upper lcaseKey) else none) with
  | some s => some (Value.str s)
  | none =>
    if v.automaticEnv && decide (1 < path.length) && isPathShadowedInAutoEnv E path then
      some Value.null
    else
      let val := searchIndexableWithPathPrefixes (path.length + 1) v.config path
      if val ≠ Value.null then some val
      else if isPathShadowedInDeepMap path v.config then some Value.null
      else none

/-- The stages of viper's `find` above the defaults. -/
def Viper.findAboveDefaults (E : Environ) (v : Viper) (lcaseKey : String) : Option Value :=
  match v.findOverride (splitPath lcaseKey) with
  | some x => some x
  | none => v.findEnvConfig E lcaseKey (splitPath lcaseKey)

/-- Viper's `find`. -/
def Viper.find (E : Environ) (v : Viper) (lcaseKey : String) : Value :=
  match v.findAboveDefaults E lcaseKey with
  | some x => x
  | none => searchMap v.defaults (splitPath lcaseKey)

/-- Go's `v.Get(key)`. -/
def Viper.Get (E : Environ) (v : Viper) (key : String) : Value := v.find E (lower key)

/-- Go's `v.Set(key, value)`: writes the override layer. -/
def Viper.Set (v : Viper) (key : String) (value : Value) : Viper :=
  { v with override := deepSet v.override (splitPath (lower key)) (toCaseInsensitiveValue value) }

/-- Go's `v.SetDefault(key, value)`: writes the defaults layer. -/
def Viper.SetDefault (v : Viper) (key : String) (value : Value) : Viper :=
  { v with defaults := deepSet v.defaults (splitPath (lower key)) (toCaseInsensitiveValue value) }

mutual
/-- Viper's `flattenAndMergeMap` on the entries of a table that lies under
`pfx`: `shadow` is the set of the keys listed so far. -/
def flattenAndMergeMap (shadow : List String) (pfx : String) : Table → List String
  | Table.nil => shadow
  | Table.cons k v rest =>
    flattenAndMergeMap (flattenEntry shadow (if pfx = "" then k else pfx ++ "." ++ k) v) pfx rest
/-- The body of the loop of `flattenAndMergeMap` on one entry: a table is
flattened in turn unless its key is listed already, any other value has its
lower-cased key listed. -/
def flattenEntry (shadow : List String) (fullKey : String) : Value → List String
  | Value.table t =>
    if fullKey ≠ "" ∧ fullKey ∈ shadow then shadow else flattenAndMergeMap shadow fullKey t
  | _ => if lower fullKey ∈ shadow then shadow else shadow ++ [lower fullKey]
end

/-- Go's `v.AllKeys()`.  The order in which Go returns the keys is
unspecified. -/
def Viper.AllKeys (v : Viper) : List String :=
  flattenAndMergeMap (flattenAndMergeMap (flattenAndMergeMap [] "" v.override) "" v.config)
    "" v.defaults

/-! ## Reference tokens -/

/-- The class `[A-Za-z0-9\-_]` of the source-name group. -/
def isNameChar (c : Char) : Bool := c.isAlphanum || c == '-' || c == '_'

/-- The class `[A-Za-z0-9\-_\.]` of the key-path group. -/
def isPathChar (c : Char) : Bool := c.isAlphanum || c == '-' || c == '_' || c == '.'

/-- One match of `referenceKeyRegexp` anchored at the head of the input: the
two groups and the text after the match.  Both groups are greedy, and neither
class holds the character that must follow it, so the match is unique. -/
def matchAt : List Char → Option (List Char × List Char × List Char)
  | '$' :: '\x7b' :: cs =>
    match cs.dropWhile isNameChar with
    | ':' :: cs2 =>
      match cs2.dropWhile isPathChar with
      | '\x7d' :: rest => some (cs.takeWhile isNameChar, cs2.takeWhile isPathChar, rest)
      | _ => none
    | _ => none
  | _ => none

/-- Go's `referenceKeyRegexp.MatchString`: a match starting anywhere. -/
def matchString : List Char → Bool
  | [] => false
  | c :: cs => (matchAt (c :: cs)).isSome || matchString cs

/-- Go's `referenceKeyRegexp.ReplaceAllString(s, "$1")` (`sel` picks group 1)
or `"$2"` (`sel` picks group 2): scanning left to right, every match is
replaced by the chosen group and the text between matches is kept.  `skip`
counts the characters of the current match still to pass over. -/
def replaceAll (sel : List Char → List Char → List Char) : Nat → List Char → List Char
  | _, [] => []
  | skip + 1, _ :: cs => replaceAll sel skip cs
  | 0, c :: cs =>
    match matchAt (c :: cs) with
    | some (name, path, _) => sel name path ++ replaceAll sel (name.length + path.length + 3) cs
    | none => c :: replaceAll sel 0 cs

/-- Go's `parseReferenceValue`: `none` is `ok = false`, and `some (key, ref)`
is `ok = true` with the two returned strings. -/
def parseReferenceValue (v : Value) : Option (String × String) :=
  match v with
  | Value.str s =>
    if matchString s.data then
      some (String.mk (replaceAll (fun name _ => name) 0 s.data),
            String.mk (replaceAll (fun _ path => path) 0 s.data))
    else none
  | _ => none

/-! ## Config -/

/-- A `*viper.Viper` held by the registry: the pointer to the primary store,
whose content changes while the resolver runs, or another store, which the
resolver only reads. -/
inductive Source where
  | primary
  | other (v : Viper)
deriving DecidableEq

/-- The store a registry pointer designates, given the primary store. -/
def Source.deref (st : Viper) : Source → Viper
  | Source.primary => st
  | Source.other v => v

/-- The `Config` struct.  Its field `v` is the pointer to the primary store;
the store itself is passed to each operation.  A `nil` pointer in
`references` is `none`. -/
structure Config where
  references : GoMap (Option Source)
  pfx : String
deriving DecidableEq

/-- Go's `newEnvViper`. -/
def newEnvViper : Viper := Viper.New.AutomaticEnv

/-- Go's `(*Config).key`. -/
def Config.key (g : Config) (k : String) : String :=
  if g.pfx ≠ "" then g.pfx ++ "." ++ k else k

/-- Go's `(*Config).Of`. -/
def Config.Of (g : Config) (p : String) : Config :=
  { references := g.references, pfx := if g.pfx ≠ "" then g.pfx ++ "." ++ p else p }

/-- Go's `getValue`. -/
def getValue (E : Environ) (v : Viper) (key : String) : Outcome Value :=
  match v.Get E key with
  | Value.null => Outcome.panic ("key not found in config " ++ key)
  | t => Outcome.ok t

/-- Go's `getValueT`: `caster` returns the converted value or the text of its
error. -/
def getValueT {T : Type} (E : Environ) (v : Viper) (key : String)
    (caster : Value → Except String T) : Outcome T :=
  match getValue E v key with
  | Outcome.ok t =>
    match caster t with
    | Except.ok r => Outcome.ok r
    | Except.error err => Outcome.panic err
  | Outcome.panic msg => Outcome.panic msg
  | Outcome.overflow => Outcome.overflow

/-- The library function `cast.ToStringE`: strings as they are, integers in
decimal, booleans as `true` or `false`, `nil` as the empty string; a list of
strings and a table have no string form, and the text of that error is
shortened. -/
def ToStringE : Value → Except String String
  | Value.null => Except.ok ""
  | Value.str s => Except.ok s
  | Value.int n => Except.ok (toString n)
  | Value.bool b => Except.ok (if b then "true" else "false")
  | Value.strs _ => Except.error "unable to cast value of type []string to string"
  | Value.table _ => Except.error "unable to cast value of type map[string]interface {} to string"

/-- Go's `(*Config).Get`. -/
def Config.Get (E : Environ) (g : Config) (key : String) (st : Viper) : Outcome Value :=
  getValue E st (g.key key)

/-- Go's `(*Config).GetString`. -/
def Config.GetString (E : Environ) (g : Config) (k : String) (st : Viper) : Outcome String :=
  getValueT E st (g.key k) ToStringE

/-- Go's `(*Config).Set`: the primary store after the call. -/
def Config.Set (g : Config) (key : String) (value : Value) (st : Viper) : Viper :=
  st.Set (g.key key) value

/-- Go's `(*Config).SetDefault`: the primary store after the call. -/
def Config.SetDefault (g : Config) (key : String) (value : Value) (st : Viper) : Viper :=
  st.SetDefault (g.key key) value

/-- Go's `(*Config).Exists`. -/
def Config.Exists (E : Environ) (g : Config) (key : String) (st : Viper) : Bool :=
  decide (st.Get E (g.key key) ≠ Value.null)

/-! ## The resolver -/

/-- Go's `getValueByReference`.  `st` is the current primary store and `fuel`
bounds the depth of the recursion, which Go bounds only by its call stack:
`Outcome.overflow` is the exhausted stack. -/
def getValueByReference (E : Environ) (st : Viper) (references : GoMap (Option Source)) :
    Nat → Source → String → Outcome Value
  | 0, _, _ => Outcome.overflow
  | fuel + 1, v, key =>
    match (v.deref st).Get E key with
    | Value.null => Outcome.panic ("key not found in config " ++ key)
    | t =>
      match parseReferenceValue t with
      | some (k, val) =>
        match references.get k with
        | none => Outcome.panic ("no reference found for: " ++ k)
        | some ref => getValueByReference E st references fuel ref val
      | none => Outcome.ok t

/-- The callback that `parseReferences` runs on one key: the value the key
holds, replaced by what its reference resolves to when it is a reference, is
written back with `Set`. -/
def resolveKey (E : Environ) (fuel : Nat) (g : Config) (key : String) (st : Viper) :
    Outcome Viper :=
  let vv := st.Get E key
  match parseReferenceValue vv with
  | some (refkey, value) =>
    match g.references.get refkey with
    | none => Outcome.panic ("no reference found for: " ++ refkey)
    | some ref =>
      match getValueByReference E st g.references fuel ref value with
      | Outcome.ok t => Outcome.ok (g.Set key t st)
      | Outcome.panic msg => Outcome.panic msg
      | Outcome.overflow => Outcome.overflow
  | none => Outcome.ok (g.Set key vv st)

/-- Modelled from the spec: `slc.ForEach` of the package `util/slc`, which is
not among the sources ("for each key"): the callback runs on the elements of
the slice in order, on the state the previous call left, and a call that does
not return ends the traversal. -/
def ForEach {σ : Type} (f : String → σ → Outcome σ) : List String → σ → Outcome σ
  | [], st => Outcome.ok st
  | x :: rest, st =>
    match f x st with
    | Outcome.ok st1 => ForEach f rest st1
    | Outcome.panic msg => Outcome.panic msg
    | Outcome.overflow => Outcome.overflow

/-- Go's `(*Config).parseReferences`.  `order` is the list `g.v.AllKeys()`
returned, in the order it returned it. -/
def parseReferences (E : Environ) (fuel : Nat) (g : Config) (order : List String)
    (st : Viper) : Outcome Viper :=
  ForEach (resolveKey E fuel g) order st

/-- The registry that `NewConfig` assembles: the reserved entries, then every
entry of `references` assigned over them (`range` visits each entry once; the
entries of `references` are taken oldest first). -/
def sourceRegistry (references : GoMap (Option Source)) : GoMap (Option Source) :=
  references.foldr (fun e r => r.set e.1 e.2)
    [("this", some Source.primary), ("env", some (Source.other newEnvViper))]

/-- Go's `NewConfig(v, references)`: the Config and the primary store after
the resolution pass.  `order` is the order in which `AllKeys` lists the keys
of `v`. -/
def NewConfig (E : Environ) (fuel : Nat) (order : List String) (v : Viper)
    (references : GoMap (Option Source)) : Outcome (Config × Viper) :=
  let c : Config := { references := sourceRegistry references, pfx := "" }
  match parseReferences E fuel c order v with
  | Outcome.ok st => Outcome.ok (c, st)
  | Outcome.panic msg => Outcome.panic msg
  | Outcome.overflow => Outcome.overflow

/-! ## Reference chains

The vocabulary in which the behaviour of the resolver is stated: the exact
token text, the chain of lookups a token starts, the keys of the primary store
that a resolution reads, and the value a key of the primary store is due to
hold once the resolver has visited it. -/

/-- The text `${s:k}`. -/
def token (s k : String) : String := "$\x7b" ++ s ++ ":" ++ k ++ "\x7d"

/-- Whether a source name is made of `[A-Za-z0-9\-_]` only. -/
def isName (s : String) : Bool := s.data.all isNameChar

/-- Whether a key path is made of `[A-Za-z0-9\-_\.]` only. -/
def isPath (s : String) : Bool := s.data.all isPathChar

/-- The path that viper walks for a key. -/
def keyPath (key : String) : List String := splitPath (lower key)

/-- Whether one of two paths is a prefix of the other (the two may be equal). -/
def comparable : List String → List String → Bool
  | [], _ => true
  | _, [] => true
  | a :: p, b :: q => decide (a = b) && comparable p q

/-- `ClearOf q k`: the key `k` is the key `q`, or neither of the two is a
dotted prefix of the other. -/
def ClearOf (q k : String) : Prop :=
  lower q = lower k ∨ comparable (keyPath q) (keyPath k) = false

/-- `Clear order k`: the key `k` is neither a proper dotted prefix nor a proper
dotted extension of a key of `order`; it may be one of them. -/
def Clear (order : List String) (k : String) : Prop := ∀ q ∈ order, ClearOf q k

/-- `Open st order`: no key of `order` lies under a leaf of the override layer
of `st`. -/
def Open (st : Viper) (order : List String) : Prop :=
  ∀ q ∈ order, isPathShadowedInDeepMap (keyPath q) st.override = false

instance (q k : String) : Decidable (ClearOf q k) :=
  inferInstanceAs (Decidable (lower q = lower k ∨ comparable (keyPath q) (keyPath k) = false))

instance (order : List String) (k : String) : Decidable (Clear order k) :=
  inferInstanceAs (Decidable (∀ q ∈ order, ClearOf q k))

instance (st : Viper) (order : List String) : Decidable (Open st order) :=
  inferInstanceAs
    (Decidable (∀ q ∈ order, isPathShadowedInDeepMap (keyPath q) st.override = false))

/-- The keys that `getValueByReference` looks up in the primary store, in the
order of the lookups, for the same arguments. -/
def readsOf (E : Environ) (st : Viper) (references : GoMap (Option Source)) :
    Nat → Source → String → List String
  | 0, _, _ => []
  | fuel + 1, v, key =>
    (match v with
     | Source.primary => [key]
     | Source.other _ => []) ++
    (match parseReferenceValue ((v.deref st).Get E key) with
     | some (k, val) =>
       match references.get k with
       | none => []
       | some ref => readsOf E st references fuel ref val
     | none => [])

/-- `ClearWalk E order st refs src key`: every key that the resolution of
`key` in `src` reads in the primary store is clear of the keys of `order`. -/
def ClearWalk (E : Environ) (order : List String) (st : Viper)
    (refs : GoMap (Option Source)) (src : Source) (key : String) : Prop :=
  ∀ fuel, ∀ k ∈ readsOf E st refs fuel src key, Clear order k

/-- `Chain E st refs src key n t`: looking `key` up in `src` and following the
tokens met on the way through the registry `refs` takes `n` lookups and ends
on the value `t`, on which `parseReferenceValue` does not match. -/
inductive Chain (E : Environ) (st : Viper) (refs : GoMap (Option Source)) :
    Source → String → Nat → Value → Prop where
  | last {src : Source} {key : String} {t : Value} :
      (src.deref st).Get E key = t → t ≠ Value.null → parseReferenceValue t = none →
      Chain E st refs src key 1 t
  | hop {src src2 : Source} {key s k : String} {n : Nat} {t : Value} :
      (src.deref st).Get E key = Value.str (token s k) →
      isName s = true → isPath k = true → refs.get s = some src2 →
      Chain E st refs src2 k n t → Chain E st refs src key (n + 1) t

/-- `Breaks E st refs s k`: the chain that the token `${s:k}` starts reaches,
at this hop or a later one, a source name with no store in the registry or a
key with no value in the named store. -/
inductive Breaks (E : Environ) (st : Viper) (refs : GoMap (Option Source)) :
    String → String → Prop where
  | noSource {s k : String} : refs.get s = none → Breaks E st refs s k
  | noKey {s k : String} {src : Source} :
      refs.get s = some src → (src.deref st).Get E k = Value.null → Breaks E st refs s k
  | hop {s k s2 k2 : String} {src : Source} :
      refs.get s = some src → (src.deref st).Get E k = Value.str (token s2 k2) →
      isName s2 = true → isPath k2 = true → Breaks E st refs s2 k2 → Breaks E st refs s k

/-- The lookup of `key` in `src` returns `t` when the call stack is deep
enough. -/
def Resolves (E : Environ) (st : Viper) (refs : GoMap (Option Source)) (src : Source)
    (key : String) (t : Value) : Prop :=
  ∃ fuel, getValueByReference E st refs fuel src key = Outcome.ok t

/-- The value `r` that a visit of `key` by the resolver passes to `Set`: what
the key holds when that is no reference, and what the reference resolves to
otherwise. -/
def Settles (E : Environ) (st : Viper) (refs : GoMap (Option Source)) (key : String)
    (r : Value) : Prop :=
  match parseReferenceValue (st.Get E key) with
  | none => r = st.Get E key
  | some (s, k) => ∃ ref t, refs.get s = some ref ∧ Resolves E st refs ref k t ∧ r = t


/-! ## Example stores -/

/-- The store whose loaded configuration holds the given entries. -/
def storeOf (entries : List (String × Value)) : Viper :=
  { Viper.New with config := Table.ofList entries }

/-- A primary store whose key `a` refers to key `k1` of source `x`. -/
def exPrimary : Viper := storeOf [("a", Value.str "$\x7bx:k1\x7d")]

/-- The source `x`, whose key `k1` refers to key `k2` of source `y`. -/
def exX : Viper := storeOf [("k1", Value.str "$\x7by:k2\x7d")]

/-- The source `y`, whose key `k2` holds a literal. -/
def exY : Viper := storeOf [("k2", Value.str "final")]

/-- The auxiliaries mapping with the sources `x` and `y`. -/
def exRefs : GoMap (Option Source) :=
  [("x", some (Source.other exX)), ("y", some (Source.other exY))]

/-- The Config that `NewConfig` returns for the auxiliaries `exRefs`. -/
def exConfig : Config := { references := sourceRegistry exRefs, pfx := "" }

/-- The store `exPrimary` after the resolution pass. -/
def exResolved : Viper := exPrimary.Set "a" (Value.str "final")

/-- A primary store whose key `a` refers to key `b` of a source `other`. -/
def exOneHop : Viper := storeOf [("a", Value.str "$\x7bother:b\x7d")]

/-- The source `other`, whose key `b` holds `42`. -/
def exOther : Viper := storeOf [("b", Value.str "42")]

/-- The auxiliaries mapping with the source `other`. -/
def exOneHopRefs : GoMap (Option Source) := [("other", some (Source.other exOther))]

/-- The Config that `NewConfig` returns for the auxiliaries `exOneHopRefs`. -/
def exOneHopConfig : Config := { references := sourceRegistry exOneHopRefs, pfx := "" }

/-- The store `exOneHop` after the resolution pass. -/
def exOneHopResolved : Viper := exOneHop.Set "a" (Value.str "42")

/-- A primary store whose key `a` names a source that is not registered. -/
def exBroken : Viper := storeOf [("a", Value.str "$\x7bzz:k\x7d")]

/-- A primary store whose key `a` refers to its own key `b`, which refers to
key `k1` of source `x`. -/
def exTwo : Viper :=
  storeOf [("a", Value.str "$\x7bthis:b\x7d"), ("b", Value.str "$\x7bx:k1\x7d")]

/-- The store `exTwo` after the pass visited `a`, then `b`. -/
def exTwoAB : Viper := (exTwo.Set "a" (Value.str "final")).Set "b" (Value.str "final")

/-- The store `exTwo` after the pass visited `b`, then `a`. -/
def exTwoBA : Viper := (exTwo.Set "b" (Value.str "final")).Set "a" (Value.str "final")

/-- A root Config with an empty auxiliaries mapping. -/
def exRoot : Config := { references := sourceRegistry [], pfx := "" }

/-- A primary store whose key `a` refers to key `k` of `this`, and whose key
`k` holds `p`. -/
def exThis : Viper := storeOf [("a", Value.str "$\x7bthis:k\x7d"), ("k", Value.str "p")]

/-- An auxiliaries mapping with an entry named `this`: a store whose key `k`
holds `o`. -/
def exThisRefs : GoMap (Option Source) :=
  [("this", some (Source.other (storeOf [("k", Value.str "o")])))]

/-- The table `srv` of the store `exNested`: its key `addr` refers to key `k`
of source `x`. -/
def exSrv : Value := Value.table (Table.ofList [("addr", Value.str "$\x7bx:k\x7d")])

/-- The table `srv` with the reference under `addr` resolved. -/
def exSrvResolved : Value := Value.table (Table.ofList [("addr", Value.str "v")])

/-- A primary store with a table: the key `a` refers to the table `srv` of the
store itself, whose key `addr` refers to key `k` of source `x`. -/
def exNested : Viper := storeOf [("a", Value.str "$\x7bthis:srv\x7d"), ("srv", exSrv)]

/-- The auxiliaries mapping with the source `x`, whose key `k` holds `v`. -/
def exNestedRefs : GoMap (Option Source) :=
  [("x", some (Source.other (storeOf [("k", Value.str "v")])))]

/-- The Config that `NewConfig` returns for the auxiliaries `exNestedRefs`. -/
def exNestedConfig : Config := { references := sourceRegistry exNestedRefs, pfx := "" }

/-- The store `exNested` after the pass visited `a`, then `srv.addr`. -/
def exNestedAS : Viper := (exNested.Set "a" exSrv).Set "srv.addr" (Value.str "v")

/-- The store `exNested` after the pass visited `srv.addr`, then `a`. -/
def exNestedSA : Viper := (exNested.Set "srv.addr" (Value.str "v")).Set "a" exSrvResolved

/-- A primary store whose key `a` refers to the key `k.x` of the store itself,
and whose key `k` refers to the table `tbl` of source `other`. -/
def exLate : Viper :=
  storeOf [("a", Value.str "$\x7bthis:k.x\x7d"), ("k", Value.str "$\x7bother:tbl\x7d")]

/-- The auxiliaries mapping with the source `other`, whose key `tbl` holds a
table with the key `x`. -/
def exLateRefs : GoMap (Option Source) :=
  [("other", some (Source.other
    (storeOf [("tbl", Value.table (Table.ofList [("x", Value.str "v")]))])))]

/-- A table with a key that has an upper-case letter. -/
def exUpper : Value := Value.table (Table.ofList [("Addr", Value.int 1)])

/-- The table `exUpper` with its key lower-cased. -/
def exUpperFolded : Value := Value.table (Table.ofList [("addr", Value.int 1)])

/-- The store `exNestedAS` after a second pass visited `a.addr`, `srv.addr`
and `a`. -/
def exNestedTwice : Viper :=
  ((exNestedAS.Set "a.addr" (Value.str "v")).Set "srv.addr" (Value.str "v")).Set "a"
    exSrvResolved

/-- The store `exLate` after the pass visited `k`, then `a`. -/
def exLateKA : Viper :=
  (exLate.Set "k" (Value.table (Table.ofList [("x", Value.str "v")]))).Set "a" (Value.str "v")

/-- A store whose loaded configuration holds a leaf under `a`. -/
def exLeaf : Viper := storeOf [("a", Value.str "leaf")]
/-! ## Keys and paths -/

theorem toLower_toLower (c : Char) : c.toLower.toLower = c.toLower := by
  by_cases h : c.toNat ≥ 65 ∧ c.toNat ≤ 90
  · have hc : c = Char.ofNat c.toNat := (Char.ofNat_toNat c).symm
    generalize c.toNat = n at h hc
    obtain ⟨h1, h2⟩ := h
    subst hc
    interval_cases n <;> decide
  · have h1 : c.toLower = c := by
      simp only [Char.toLower]
      exact if_neg h
    rw [h1, h1]

theorem lower_lower (s : String) : lower (lower s) = lower s := by
  simp [lower, List.map_map, Function.comp_def, toLower_toLower]

theorem splitDots_ne_nil (cs : List Char) : splitDots cs ≠ [] := by
  cases cs with
  | nil => simp [splitDots]
  | cons c cs =>
    simp only [splitDots]
    split
    · simp
    · split <;> simp

theorem keyPath_ne_nil (k : String) : keyPath k ≠ [] := by
  simp [keyPath, splitPath, splitDots_ne_nil]

theorem keyPath_congr {k q : String} (h : lower k = lower q) : keyPath k = keyPath q := by
  simp [keyPath, h]

theorem comparable_refl (p : List String) : comparable p p = true := by
  induction p with
  | nil => rfl
  | cons a p ih => simp [comparable, ih]

theorem comparable_symm (p q : List String) : comparable p q = comparable q p := by
  induction p generalizing q with
  | nil => cases q <;> rfl
  | cons a p ih =>
    cases q with
    | nil => rfl
    | cons b q =>
      simp only [comparable, ih q]
      by_cases h : a = b
      · subst h; rfl
      · have h2 : ¬ b = a := fun e => h e.symm
        simp [h, h2]

/-! ## Tables -/

theorem Table.get_set : ∀ (t : Table) (k k2 : String) (x : Value),
    (t.set k x).get k2 = if k = k2 then x else t.get k2
  | Table.nil, k, k2, x => by simp only [Table.set, Table.get]
  | Table.cons a v rest, k, k2, x => by
    have ih := Table.get_set rest k k2 x
    simp only [Table.set]
    by_cases h : a = k
    · subst h
      simp only [if_true, Table.get]
      by_cases h2 : a = k2 <;> simp [h2]
    · simp only [if_neg h, Table.get, ih]
      by_cases h2 : a = k2
      · subst h2
        have : ¬ k = a := fun e => h e.symm
        simp [this]
      · simp [h2]

theorem Table.get_set_self (t : Table) (k : String) (x : Value) : (t.set k x).get k = x := by
  rw [Table.get_set, if_pos rfl]

theorem Table.get_set_ne (t : Table) (k k2 : String) (x : Value) (h : k ≠ k2) :
    (t.set k x).get k2 = t.get k2 := by
  rw [Table.get_set, if_neg h]

theorem Table.set_set : ∀ (t : Table) (k : String) (x y : Value),
    (t.set k x).set k y = t.set k y
  | Table.nil, k, x, y => by simp [Table.set]
  | Table.cons a v rest, k, x, y => by
    have ih := Table.set_set rest k x y
    simp only [Table.set]
    by_cases h : a = k
    · simp [h, Table.set]
    · simp [h, Table.set, ih]

/-- An assignment that changes nothing still changes nothing after an
assignment to another key. -/
theorem Table.set_fixed_of_ne : ∀ (t : Table) (k k2 : String) (x y : Value),
    t.set k x = t → k ≠ k2 → (t.set k2 y).set k x = t.set k2 y
  | Table.nil, k, k2, x, y => by intro h; simp [Table.set] at h
  | Table.cons a v rest, k, k2, x, y => by
    intro h hne
    have ih := Table.set_fixed_of_ne rest k k2 x y
    simp only [Table.set] at h ⊢
    by_cases ha : a = k
    · subst ha
      have ha2 : ¬ a = k2 := hne
      simp only [if_true] at h
      simp only [if_neg ha2, Table.set, if_true]
      injection h with _ hv _
      rw [hv]
    · simp only [if_neg ha] at h
      injection h with _ _ hr
      by_cases ha2 : a = k2
      · simp only [if_pos ha2, Table.set, if_neg ha]
        rw [hr]
      · simp only [if_neg ha2, Table.set, if_neg ha]
        rw [ih hr hne]

theorem deepSet_cons2 (m : Table) (k k2 : String) (rest : List String) (x : Value) :
    deepSet m (k :: k2 :: rest) x =
      m.set k (Value.table (deepSet (match m.get k with
          | Value.table t => t
          | _ => Table.nil) (k2 :: rest) x)) := by
  simp only [deepSet]
  cases m.get k <;> rfl

theorem searchMap_nil (p : List String) (hp : p ≠ []) : searchMap Table.nil p = Value.null := by
  cases p with
  | nil => exact absurd rfl hp
  | cons k rest => cases rest <;> simp [searchMap, Table.get]

theorem shadowed_nil (p : List String) : isPathShadowedInDeepMap p Table.nil = false := by
  cases p with
  | nil => rfl
  | cons k rest => cases rest <;> simp [isPathShadowedInDeepMap, Table.get]

/-- The value at a path depends on the table through its first step only. -/
theorem searchMap_congr_head (m m2 : Table) (k : String) (rest : List String)
    (h : m2.get k = m.get k) : searchMap m2 (k :: rest) = searchMap m (k :: rest) := by
  cases rest with
  | nil => simp [searchMap, h]
  | cons k2 rest => simp only [searchMap, h]

theorem shadowed_congr_head (m m2 : Table) (k : String) (rest : List String)
    (h : m2.get k = m.get k) :
    isPathShadowedInDeepMap (k :: rest) m2 = isPathShadowedInDeepMap (k :: rest) m := by
  cases rest with
  | nil => simp [isPathShadowedInDeepMap]
  | cons k2 rest => simp only [isPathShadowedInDeepMap, h]

/-- The first step of the table after a deep assignment. -/
theorem deepSet_get_head (m : Table) (k : String) (rest : List String) (x : Value) :
    (deepSet m (k :: rest) x).get k =
      match rest with
      | [] => x
      | _ :: _ =>
        Value.table (deepSet (match m.get k with
          | Value.table t => t
          | _ => Table.nil) rest x) := by
  cases rest with
  | nil => simp [deepSet, Table.get_set_self]
  | cons k2 rest =>
    simp only [deepSet]
    cases hm : m.get k <;> simp [Table.get_set_self]

theorem deepSet_get_ne (m : Table) (k k2 : String) (rest : List String) (x : Value)
    (h : k ≠ k2) : (deepSet m (k :: rest) x).get k2 = m.get k2 := by
  cases rest with
  | nil => simp [deepSet, Table.get_set_ne _ _ _ _ h]
  | cons k3 rest =>
    simp only [deepSet]
    cases hm : m.get k <;> simp [Table.get_set_ne _ _ _ _ h]

/-- A deep assignment is read back at its path. -/
theorem searchMap_deepSet_self (p : List String) (hp : p ≠ []) :
    ∀ (m : Table) (x : Value), searchMap (deepSet m p x) p = x := by
  induction p with
  | nil => exact absurd rfl hp
  | cons k rest ih =>
    intro m x
    cases rest with
    | nil => simp [searchMap, deepSet, Table.get_set_self]
    | cons k2 rest =>
      have hg := deepSet_get_head m k (k2 :: rest) x
      simp only at hg
      simp only [searchMap, hg]
      exact ih (by simp) _ x

/-- After a deep assignment no leaf lies on the way to its path. -/
theorem shadowed_deepSet_self (p : List String) :
    ∀ (m : Table) (x : Value), isPathShadowedInDeepMap p (deepSet m p x) = false := by
  induction p with
  | nil => intro m x; rfl
  | cons k rest ih =>
    intro m x
    cases rest with
    | nil => rfl
    | cons k2 rest =>
      have hg := deepSet_get_head m k (k2 :: rest) x
      simp only at hg
      simp only [isPathShadowedInDeepMap, hg]
      exact ih _ x

/-- A deep assignment at a path that no leaf shadows changes neither the value
nor the shadowing of a path that is apart from it. -/
theorem deepSet_apart (p : List String) :
    ∀ (q : List String) (m : Table) (x : Value), comparable p q = false →
      isPathShadowedInDeepMap q m = false →
      searchMap (deepSet m q x) p = searchMap m p ∧
      isPathShadowedInDeepMap p (deepSet m q x) = isPathShadowedInDeepMap p m := by
  induction p with
  | nil => intro q m x h; simp [comparable] at h
  | cons a ps ih =>
    intro q m x h hsh
    cases q with
    | nil => simp [comparable] at h
    | cons b qs =>
      by_cases hab : a = b
      · subst hab
        simp only [comparable, decide_True, Bool.true_and] at h
        cases qs with
        | nil => cases ps <;> simp [comparable] at h
        | cons b2 qs =>
          cases ps with
          | nil => simp [comparable] at h
          | cons a2 ps =>
            have hg := deepSet_get_head m a (b2 :: qs) x
            simp only at hg
            simp only [searchMap, isPathShadowedInDeepMap, hg]
            simp only [isPathShadowedInDeepMap] at hsh
            cases hm : m.get a with
            | table t =>
              rw [hm] at hsh
              simp only at hsh ⊢
              exact ih (b2 :: qs) t x h hsh
            | null =>
              simp only
              have := ih (b2 :: qs) Table.nil x h (shadowed_nil _)
              rw [searchMap_nil _ (by simp), shadowed_nil] at this
              exact this
            | str s => rw [hm] at hsh; simp at hsh
            | int n => rw [hm] at hsh; simp at hsh
            | bool b => rw [hm] at hsh; simp at hsh
            | strs l => rw [hm] at hsh; simp at hsh
      · have hne : b ≠ a := fun e => hab e.symm
        have hg := deepSet_get_ne m b a qs x hne
        exact ⟨searchMap_congr_head _ _ a ps hg, shadowed_congr_head _ _ a ps hg⟩

/-- Writing twice the same value at the same path is writing it once. -/
theorem deepSet_idem (p : List String) :
    ∀ (m : Table) (x : Value), deepSet (deepSet m p x) p x = deepSet m p x := by
  induction p with
  | nil => intro m x; rfl
  | cons k rest ih =>
    intro m x
    cases rest with
    | nil => simp [deepSet, Table.set_set]
    | cons k2 rest =>
      have hg := deepSet_get_head m k (k2 :: rest) x
      simp only at hg
      rw [deepSet_cons2 (deepSet m (k :: k2 :: rest) x), hg]
      simp only
      rw [ih, deepSet_cons2 m, Table.set_set]

theorem deepSet_head_form (m : Table) (k : String) (rest : List String) (x : Value) :
    ∃ y, deepSet m (k :: rest) x = m.set k y := by
  cases rest with
  | nil => exact ⟨x, rfl⟩
  | cons k2 rest => exact ⟨_, deepSet_cons2 m k k2 rest x⟩

/-- A deep assignment that changes nothing still changes nothing after a deep
assignment at a path that is apart from it. -/
theorem deepSet_fixed_apart (p : List String) :
    ∀ (q : List String) (m : Table) (x y : Value), deepSet m p x = m →
      comparable p q = false → deepSet (deepSet m q y) p x = deepSet m q y := by
  induction p with
  | nil => intro q m x y _ h; simp [comparable] at h
  | cons a ps ih =>
    intro q m x y hfix h
    cases q with
    | nil => simp [comparable] at h
    | cons b qs =>
      by_cases hab : a = b
      · subst hab
        simp only [comparable, decide_True, Bool.true_and] at h
        cases qs with
        | nil => cases ps <;> simp [comparable] at h
        | cons b2 qs =>
          cases ps with
          | nil => simp [comparable] at h
          | cons a2 ps =>
            rw [deepSet_cons2] at hfix
            have hget := congrArg (fun t => Table.get t a) hfix
            simp only [Table.get_set_self] at hget
            cases hm : m.get a with
            | table t =>
              rw [hm] at hget
              simp only [Value.table.injEq] at hget
              have hg2 := deepSet_get_head m a (b2 :: qs) y
              simp only [hm] at hg2
              rw [deepSet_cons2 (deepSet m (a :: b2 :: qs) y), hg2]
              simp only
              rw [ih (b2 :: qs) t x y hget h, deepSet_cons2 m, hm, Table.set_set]
            | null => rw [hm] at hget; cases hget
            | str s => rw [hm] at hget; cases hget
            | int n => rw [hm] at hget; cases hget
            | bool b => rw [hm] at hget; cases hget
            | strs l => rw [hm] at hget; cases hget
      · have hne : b ≠ a := fun e => hab e.symm
        obtain ⟨z, hz⟩ := deepSet_head_form m b qs y
        have hg := deepSet_get_ne m b a qs y hne
        cases ps with
        | nil =>
          simp only [deepSet] at hfix ⊢
          rw [hz]
          exact Table.set_fixed_of_ne m a b x z hfix hab
        | cons a2 ps =>
          rw [deepSet_cons2] at hfix ⊢
          rw [hg, hz]
          exact Table.set_fixed_of_ne m a b _ z hfix hab

/-! ## Case-insensitive copies -/

mutual
theorem toCaseInsensitiveValue_idem : ∀ (x : Value),
    toCaseInsensitiveValue (toCaseInsensitiveValue x) = toCaseInsensitiveValue x
  | Value.table t => by
    simp only [toCaseInsensitiveValue, copyAndInsensitiviseMap_idem t]
  | Value.null => rfl
  | Value.str _ => rfl
  | Value.int _ => rfl
  | Value.bool _ => rfl
  | Value.strs _ => rfl
theorem copyAndInsensitiviseMap_idem : ∀ (t : Table),
    copyAndInsensitiviseMap (copyAndInsensitiviseMap t) = copyAndInsensitiviseMap t
  | Table.nil => rfl
  | Table.cons k v rest => by
    simp only [copyAndInsensitiviseMap, lower_lower, toCaseInsensitiveValue_idem v,
      copyAndInsensitiviseMap_idem rest]
end

theorem toCaseInsensitiveValue_eq_null (x : Value) :
    toCaseInsensitiveValue x = Value.null ↔ x = Value.null := by
  cases x <;> simp [toCaseInsensitiveValue]

theorem parseReferenceValue_fold (x : Value) :
    parseReferenceValue (toCaseInsensitiveValue x) = parseReferenceValue x := by
  cases x <;> simp [toCaseInsensitiveValue, parseReferenceValue]

theorem toCaseInsensitiveValue_leaf (x : Value) (h : ∀ t, x ≠ Value.table t) :
    toCaseInsensitiveValue x = x := by
  cases x with
  | table t => exact absurd rfl (h t)
  | null => rfl
  | str _ => rfl
  | int _ => rfl
  | bool _ => rfl
  | strs _ => rfl

/-! ## Reading after writing -/

theorem Viper.Get_congr (E : Environ) (v : Viper) (k k2 : String) (h : lower k = lower k2) :
    v.Get E k = v.Get E k2 := by
  simp [Viper.Get, h]

/-- What `Get` returns, as a function of the stage on the overrides. -/
theorem Viper.Get_eq (E : Environ) (v : Viper) (k : String) :
    v.Get E k =
      if searchMap v.override (keyPath k) ≠ Value.null then searchMap v.override (keyPath k)
      else if isPathShadowedInDeepMap (keyPath k) v.override then Value.null
      else
        match v.findEnvConfig E (lower k) (keyPath k) with
        | some x => x
        | none => searchMap v.defaults (keyPath k) := by
  simp only [Viper.Get, Viper.find, Viper.findAboveDefaults, Viper.findOverride, keyPath]
  by_cases h1 : searchMap v.override (splitPath (lower k)) ≠ Value.null
  · simp [h1]
  · by_cases h2 : isPathShadowedInDeepMap (splitPath (lower k)) v.override = true
    · simp [h1, h2]
    · simp [h1, h2]

theorem Viper.Set_override (v : Viper) (q : String) (x : Value) :
    (v.Set q x).override = deepSet v.override (keyPath q) (toCaseInsensitiveValue x) := rfl

theorem Viper.findEnvConfig_Set (E : Environ) (v : Viper) (q : String) (x : Value)
    (lk : String) (p : List String) :
    (v.Set q x).findEnvConfig E lk p = v.findEnvConfig E lk p := rfl

/-- A write of a value other than `nil` is read back, with the keys of a table
lower-cased. -/
theorem Viper.Get_Set_same (E : Environ) (v : Viper) (q k : String) (x : Value)
    (hx : x ≠ Value.null) (hk : lower k = lower q) :
    (v.Set q x).Get E k = toCaseInsensitiveValue x := by
  rw [Viper.Get_eq, Viper.Set_override, keyPath_congr hk,
    searchMap_deepSet_self _ (keyPath_ne_nil q)]
  have : toCaseInsensitiveValue x ≠ Value.null := fun h =>
    hx ((toCaseInsensitiveValue_eq_null x).mp h)
  simp [this]

/-- A key that reads `nil` and that no leaf of the overrides shadows still
reads `nil` after `nil` was written under it. -/
theorem Viper.Get_Set_null (E : Environ) (v : Viper) (q k : String)
    (hnull : v.Get E q = Value.null)
    (hopen : isPathShadowedInDeepMap (keyPath q) v.override = false)
    (hk : lower k = lower q) : (v.Set q Value.null).Get E k = Value.null := by
  rw [Viper.Get_congr E _ k q hk]
  rw [Viper.Get_eq] at hnull ⊢
  rw [Viper.Set_override, searchMap_deepSet_self _ (keyPath_ne_nil q), shadowed_deepSet_self]
  simp only [toCaseInsensitiveValue, ne_eq, not_true_eq_false, if_false, Bool.false_eq_true]
  rw [hopen] at hnull
  by_cases h1 : searchMap v.override (keyPath q) ≠ Value.null
  · rw [if_pos h1] at hnull; exact absurd hnull h1
  · rw [if_neg h1] at hnull
    simpa using hnull

/-- A write under a key that no leaf of the overrides shadows changes no
reading of a key that is apart from it. -/
theorem Viper.Get_Set_apart (E : Environ) (v : Viper) (q k : String) (x : Value)
    (hopen : isPathShadowedInDeepMap (keyPath q) v.override = false)
    (hapart : comparable (keyPath q) (keyPath k) = false) :
    (v.Set q x).Get E k = v.Get E k := by
  have h := deepSet_apart (keyPath k) (keyPath q) v.override (toCaseInsensitiveValue x)
    (by rw [comparable_symm]; exact hapart) hopen
  rw [Viper.Get_eq, Viper.Get_eq, Viper.Set_override, h.1, h.2]
  rfl

/-- After a write under `q`, a key that is `q` or apart from `q` is shadowed by
a leaf of the overrides only if it was. -/
theorem Viper.open_Set (v : Viper) (q k : String) (x : Value)
    (hopen : isPathShadowedInDeepMap (keyPath q) v.override = false)
    (hk : isPathShadowedInDeepMap (keyPath k) v.override = false)
    (hclear : lower q = lower k ∨ comparable (keyPath q) (keyPath k) = false) :
    isPathShadowedInDeepMap (keyPath k) (v.Set q x).override = false := by
  rw [Viper.Set_override]
  rcases hclear with h | h
  · rw [← keyPath_congr h]; exact shadowed_deepSet_self _ _ _
  · rw [(deepSet_apart (keyPath k) (keyPath q) v.override _
      (by rw [comparable_symm]; exact h) hopen).2]
    exact hk

/-! ## Tokens of the exact form -/

theorem takeWhile_append_stop (p : Char → Bool) (l r : List Char) (x : Char)
    (hl : l.all p = true) (hx : p x = false) : (l ++ x :: r).takeWhile p = l := by
  induction l with
  | nil => simp [List.takeWhile, hx]
  | cons a l ih =>
    simp only [List.all_cons, Bool.and_eq_true] at hl
    simp [List.takeWhile, hl.1, ih hl.2]

theorem dropWhile_append_stop (p : Char → Bool) (l r : List Char) (x : Char)
    (hl : l.all p = true) (hx : p x = false) : (l ++ x :: r).dropWhile p = x :: r := by
  induction l with
  | nil => simp [List.dropWhile, hx]
  | cons a l ih =>
    simp only [List.all_cons, Bool.and_eq_true] at hl
    simp [List.dropWhile, hl.1, ih hl.2]

theorem matchAt_token (s k rest : List Char) (hs : s.all isNameChar = true)
    (hk : k.all isPathChar = true) :
    matchAt ('$' :: '\x7b' :: (s ++ ':' :: (k ++ '\x7d' :: rest))) = some (s, k, rest) := by
  have h1 : isNameChar ':' = false := by decide
  have h2 : isPathChar '\x7d' = false := by decide
  simp only [matchAt, dropWhile_append_stop isNameChar s _ ':' hs h1,
    dropWhile_append_stop isPathChar k _ '\x7d' hk h2,
    takeWhile_append_stop isNameChar s _ ':' hs h1,
    takeWhile_append_stop isPathChar k _ '\x7d' hk h2]

theorem replaceAll_skip (sel : List Char → List Char → List Char) (l : List Char) (n : Nat)
    (h : l.length ≤ n) : replaceAll sel n l = [] := by
  induction l generalizing n with
  | nil => cases n <;> simp [replaceAll]
  | cons a l ih =>
    cases n with
    | zero => simp at h
    | succ n =>
      simp only [replaceAll]
      exact ih n (by simpa using h)

theorem token_data (s k : String) :
    (token s k).data = '$' :: '\x7b' :: (s.data ++ ':' :: (k.data ++ '\x7d' :: [])) := by
  simp [token, String.data_append]

/-- A token of the exact form is parsed into its two names. -/
theorem parseReferenceValue_token (s k : String) (hs : isName s = true) (hk : isPath k = true) :
    parseReferenceValue (Value.str (token s k)) = some (s, k) := by
  have hm := matchAt_token s.data k.data [] hs hk
  simp only [parseReferenceValue, token_data]
  have hms : matchString ('$' :: '\x7b' :: (s.data ++ ':' :: (k.data ++ '\x7d' :: []))) = true := by
    simp [matchString, hm]
  rw [if_pos hms]
  simp only [replaceAll, hm]
  rw [replaceAll_skip, replaceAll_skip]
  · simp
  · simp; omega
  · simp; omega

theorem parseReferenceValue_null : parseReferenceValue Value.null = none := rfl

/-! ## The recursion of `getValueByReference` -/

theorem gvbr_succ (E : Environ) (st : Viper) (refs : GoMap (Option Source)) (n : Nat)
    (src : Source) (key : String) :
    getValueByReference E st refs (n + 1) src key =
      if (src.deref st).Get E key = Value.null then
        Outcome.panic ("key not found in config " ++ key)
      else
        match parseReferenceValue ((src.deref st).Get E key) with
        | some (k, val) =>
          match refs.get k with
          | none => Outcome.panic ("no reference found for: " ++ k)
          | some ref => getValueByReference E st refs n ref val
        | none => Outcome.ok ((src.deref st).Get E key) := by
  simp only [getValueByReference]
  cases (src.deref st).Get E key <;> simp

/-- One step of a successful resolution, read off the first lookup. -/
theorem gvbr_ok_iff (E : Environ) (st : Viper) (refs : GoMap (Option Source)) (n : Nat)
    (src : Source) (key : String) (t : Value) :
    getValueByReference E st refs (n + 1) src key = Outcome.ok t ↔
      (src.deref st).Get E key ≠ Value.null ∧
        ((parseReferenceValue ((src.deref st).Get E key) = none ∧
            (src.deref st).Get E key = t) ∨
         (∃ k val ref, parseReferenceValue ((src.deref st).Get E key) = some (k, val) ∧
            refs.get k = some ref ∧
            getValueByReference E st refs n ref val = Outcome.ok t)) := by
  rw [gvbr_succ]
  by_cases hg : (src.deref st).Get E key = Value.null
  · simp [hg]
  · rw [if_neg hg]
    simp only [ne_eq, hg, not_false_eq_true, true_and]
    cases hp : parseReferenceValue ((src.deref st).Get E key) with
    | none => simp
    | some p =>
      obtain ⟨k, val⟩ := p
      simp only
      cases hr : refs.get k with
      | none =>
        constructor
        · intro h; cases h
        · rintro (⟨h, _⟩ | ⟨k2, val2, ref, hkv, hr2, _⟩)
          · cases h
          · cases hkv
            rw [hr] at hr2
            cases hr2
      | some ref =>
        constructor
        · intro h
          exact Or.inr ⟨k, val, ref, rfl, hr, h⟩
        · rintro (⟨h, _⟩ | ⟨k2, val2, ref2, hkv, hr2, h⟩)
          · cases h
          · cases hkv
            rw [hr] at hr2
            cases hr2
            exact h

theorem gvbr_mono (E : Environ) (st : Viper) (refs : GoMap (Option Source)) (fuel : Nat) :
    ∀ (src : Source) (key : String) (r : Outcome Value),
      getValueByReference E st refs fuel src key = r → r ≠ Outcome.overflow →
      ∀ fuel2, fuel ≤ fuel2 → getValueByReference E st refs fuel2 src key = r := by
  induction fuel with
  | zero => intro src key r h hr; simp [getValueByReference] at h; exact absurd h.symm hr
  | succ n ih =>
    intro src key r h hr fuel2 hle
    obtain ⟨m, rfl⟩ : ∃ m, fuel2 = m + 1 := ⟨fuel2 - 1, by omega⟩
    rw [gvbr_succ] at h ⊢
    by_cases hg : (src.deref st).Get E key = Value.null
    · rw [if_pos hg] at h ⊢; exact h
    · rw [if_neg hg] at h ⊢
      cases hp : parseReferenceValue ((src.deref st).Get E key) with
      | none => rw [hp] at h; exact h
      | some p =>
        obtain ⟨k, val⟩ := p
        rw [hp] at h
        simp only at h ⊢
        cases hr2 : refs.get k with
        | none => rw [hr2] at h; exact h
        | some ref =>
          rw [hr2] at h
          exact ih ref val r h hr m (by omega)

/-- Two finished runs of the same resolution have the same outcome. -/
theorem gvbr_det (E : Environ) (st : Viper) (refs : GoMap (Option Source)) (f f2 : Nat)
    (src : Source) (key : String) (r r2 : Outcome Value)
    (h : getValueByReference E st refs f src key = r) (hr : r ≠ Outcome.overflow)
    (h2 : getValueByReference E st refs f2 src key = r2) (hr2 : r2 ≠ Outcome.overflow) :
    r = r2 := by
  have a := gvbr_mono E st refs f src key _ h hr (max f f2) (le_max_left _ _)
  have b := gvbr_mono E st refs f2 src key _ h2 hr2 (max f f2) (le_max_right _ _)
  rw [a] at b
  exact b

/-- A resolved value is not `nil` and is no reference. -/
theorem gvbr_terminal (E : Environ) (st : Viper) (refs : GoMap (Option Source)) (fuel : Nat) :
    ∀ (src : Source) (key : String) (t : Value),
      getValueByReference E st refs fuel src key = Outcome.ok t →
      t ≠ Value.null ∧ parseReferenceValue t = none := by
  induction fuel with
  | zero => intro src key t h; simp [getValueByReference] at h
  | succ n ih =>
    intro src key t h
    rw [gvbr_ok_iff] at h
    obtain ⟨hne, h2⟩ := h
    rcases h2 with ⟨hp, rfl⟩ | ⟨k, val, ref, _, _, hrec⟩
    · exact ⟨hne, hp⟩
    · exact ih ref val t hrec

theorem Resolves.value_unique {E : Environ} {st : Viper} {refs : GoMap (Option Source)}
    {src : Source} {key : String} {t t2 : Value} (h : Resolves E st refs src key t)
    (h2 : Resolves E st refs src key t2) : t = t2 := by
  obtain ⟨f, hf⟩ := h
  obtain ⟨f2, hf2⟩ := h2
  exact Outcome.ok.inj (gvbr_det E st refs f f2 src key _ _ hf (by simp) hf2 (by simp))

theorem Settles.settled_unique {E : Environ} {st : Viper} {refs : GoMap (Option Source)}
    {key : String} {r r2 : Value} (h : Settles E st refs key r)
    (h2 : Settles E st refs key r2) : r = r2 := by
  unfold Settles at h h2
  cases hp : parseReferenceValue (st.Get E key) with
  | none => rw [hp] at h h2; simp only at h h2; rw [h, h2]
  | some p =>
    obtain ⟨s, k⟩ := p
    rw [hp] at h h2
    simp only at h h2
    obtain ⟨ref, t, hr, hres, rfl⟩ := h
    obtain ⟨ref2, t2, hr2, hres2, rfl⟩ := h2
    rw [hr] at hr2
    cases Option.some.inj hr2
    exact hres.value_unique hres2

/-- A settled value is no reference. -/
theorem Settles.terminal {E : Environ} {st : Viper} {refs : GoMap (Option Source)}
    {key : String} {r : Value} (h : Settles E st refs key r) : parseReferenceValue r = none := by
  unfold Settles at h
  cases hp : parseReferenceValue (st.Get E key) with
  | none => rw [hp] at h; simp only at h; rw [h]; exact hp
  | some p =>
    obtain ⟨s, k⟩ := p
    rw [hp] at h
    simp only at h
    obtain ⟨ref, t, _, ⟨f, hf⟩, rfl⟩ := h
    exact (gvbr_terminal E st refs f ref k _ hf).2

theorem Settles.congr_key {E : Environ} {st : Viper} {refs : GoMap (Option Source)}
    {key k2 : String} {r : Value} (hk : lower key = lower k2) (h : Settles E st refs key r) :
    Settles E st refs k2 r := by
  unfold Settles at h ⊢
  rw [← Viper.Get_congr E st key k2 hk]
  exact h

/-- A settled value is `nil` only for a key that reads `nil`. -/
theorem Settles.null_iff {E : Environ} {st : Viper} {refs : GoMap (Option Source)}
    {key : String} {r : Value} (h : Settles E st refs key r) :
    r = Value.null ↔ st.Get E key = Value.null := by
  unfold Settles at h
  cases hp : parseReferenceValue (st.Get E key) with
  | none => rw [hp] at h; simp only at h; rw [h]
  | some p =>
    obtain ⟨s, k⟩ := p
    rw [hp] at h
    simp only at h
    obtain ⟨ref, t, _, ⟨f, hf⟩, rfl⟩ := h
    constructor
    · intro h0; exact absurd h0 (gvbr_terminal E st refs f ref k r hf).1
    · intro h0; rw [h0, parseReferenceValue_null] at hp; cases hp

/-- The resolution that starts at a key of the primary store ends on the value
the key settles to. -/
theorem Settles.resolves_primary {E : Environ} {st : Viper} {refs : GoMap (Option Source)}
    {k0 : String} {r0 : Value} (h : Settles E st refs k0 r0)
    (hg : st.Get E k0 ≠ Value.null) : Resolves E st refs Source.primary k0 r0 := by
  unfold Settles at h
  cases hp : parseReferenceValue (st.Get E k0) with
  | none =>
    rw [hp] at h
    simp only at h
    refine ⟨1, ?_⟩
    rw [gvbr_ok_iff]
    exact ⟨hg, Or.inl ⟨hp, h.symm⟩⟩
  | some p =>
    obtain ⟨s, k⟩ := p
    rw [hp] at h
    simp only at h
    obtain ⟨ref, t, hr, ⟨f, hf⟩, rfl⟩ := h
    refine ⟨f + 1, ?_⟩
    rw [gvbr_ok_iff]
    exact ⟨hg, Or.inr ⟨s, k, ref, hp, hr, hf⟩⟩

/-! ## One visit of the resolver -/

theorem ClearOf.symm {q k : String} (h : ClearOf q k) : ClearOf k q := by
  rcases h with h | h
  · exact Or.inl h.symm
  · exact Or.inr (by rw [comparable_symm]; exact h)

theorem readsOf_succ (E : Environ) (st : Viper) (refs : GoMap (Option Source)) (n : Nat)
    (src : Source) (key : String) :
    readsOf E st refs (n + 1) src key =
      (match src with
       | Source.primary => [key]
       | Source.other _ => []) ++
      (match parseReferenceValue ((src.deref st).Get E key) with
       | some (k, val) =>
         match refs.get k with
         | none => []
         | some ref => readsOf E st refs n ref val
       | none => []) := rfl

theorem readsOf_primary_mem (E : Environ) (st : Viper) (refs : GoMap (Option Source))
    (n : Nat) (key : String) : key ∈ readsOf E st refs (n + 1) Source.primary key := by
  rw [readsOf_succ]; simp

theorem readsOf_next (E : Environ) (st : Viper) (refs : GoMap (Option Source)) (n : Nat)
    (src ref : Source) (key s k : String)
    (hp : parseReferenceValue ((src.deref st).Get E key) = some (s, k))
    (hr : refs.get s = some ref) (x : String) (hx : x ∈ readsOf E st refs n ref k) :
    x ∈ readsOf E st refs (n + 1) src key := by
  rw [readsOf_succ, hp]
  simp only [hr]
  exact List.mem_append_right _ hx

/-- What a key reads after the visit of `q`, for the key `q` itself. -/
theorem visit_get_same (E : Environ) (st : Viper) (refs : GoMap (Option Source))
    (q k : String) (r : Value) (hset : Settles E st refs q r)
    (hopen : isPathShadowedInDeepMap (keyPath q) st.override = false)
    (hk : lower q = lower k) : (st.Set q r).Get E k = toCaseInsensitiveValue r := by
  by_cases hr : r = Value.null
  · subst hr
    exact Viper.Get_Set_null E st q k (hset.null_iff.mp rfl) hopen hk.symm
  · exact Viper.Get_Set_same E st q k r hr hk.symm

/-- What a source reads after the visit of `q`, for a key that is clear of `q`. -/
theorem visit_deref_get (E : Environ) (st : Viper) (refs : GoMap (Option Source))
    (q : String) (r : Value) (hset : Settles E st refs q r)
    (hopen : isPathShadowedInDeepMap (keyPath q) st.override = false)
    (src : Source) (key : String) (hclear : src = Source.primary → ClearOf q key) :
    (src.deref (st.Set q r)).Get E key =
      if src = Source.primary ∧ lower q = lower key then toCaseInsensitiveValue r
      else (src.deref st).Get E key := by
  cases src with
  | other v => simp [Source.deref]
  | primary =>
    simp only [Source.deref, true_and]
    by_cases hk : lower q = lower key
    · rw [if_pos hk]; exact visit_get_same E st refs q key r hset hopen hk
    · rw [if_neg hk]
      rcases hclear rfl with h | h
      · exact absurd h hk
      · exact Viper.Get_Set_apart E st q key r hopen h

theorem Resolves.at_key {E : Environ} {st : Viper} {refs : GoMap (Option Source)}
    {key k0 : String} {t : Value} (hk : lower key = lower k0)
    (h : Resolves E st refs Source.primary key t) : Resolves E st refs Source.primary k0 t := by
  obtain ⟨f, hf⟩ := h
  cases f with
  | zero => simp [getValueByReference] at hf
  | succ n =>
    refine ⟨n + 1, ?_⟩
    rw [gvbr_ok_iff] at hf ⊢
    simp only [Source.deref] at hf ⊢
    rw [← Viper.Get_congr E st key k0 hk]
    exact hf

/-- A successful resolution whose reads are clear of `q` is successful after
the visit of `q`, and ends on the same value up to the case of table keys. -/
theorem gvbr_visit_ok (E : Environ) (st : Viper) (refs : GoMap (Option Source))
    (q : String) (r : Value) (hset : Settles E st refs q r)
    (hopen : isPathShadowedInDeepMap (keyPath q) st.override = false) (fuel : Nat) :
    ∀ (src : Source) (key : String) (t : Value),
      (∀ k ∈ readsOf E st refs fuel src key, ClearOf q k) →
      getValueByReference E st refs fuel src key = Outcome.ok t →
      ∃ t1, getValueByReference E (st.Set q r) refs fuel src key = Outcome.ok t1 ∧
        toCaseInsensitiveValue t1 = toCaseInsensitiveValue t := by
  induction fuel with
  | zero => intro src key t _ h; simp [getValueByReference] at h
  | succ n ih =>
    intro src key t hreads h
    have hclear : src = Source.primary → ClearOf q key := by
      intro hs; subst hs
      exact hreads key (readsOf_primary_mem E st refs n key)
    have hget := visit_deref_get E st refs q r hset hopen src key hclear
    by_cases hc : src = Source.primary ∧ lower q = lower key
    · rw [if_pos hc] at hget
      obtain ⟨rfl, hk⟩ := hc
      have hres : Resolves E st refs Source.primary q t := Resolves.at_key hk.symm ⟨n + 1, h⟩
      have hne : st.Get E q ≠ Value.null := by
        obtain ⟨f, hf⟩ := hres
        cases f with
        | zero => simp [getValueByReference] at hf
        | succ m => rw [gvbr_ok_iff] at hf; exact hf.1
      have hrt : r = t := (hset.resolves_primary hne).value_unique hres
      subst hrt
      have hterm := gvbr_terminal E st refs _ _ _ _ h
      refine ⟨toCaseInsensitiveValue r, ?_, toCaseInsensitiveValue_idem r⟩
      rw [gvbr_ok_iff, hget]
      exact ⟨fun h0 => hterm.1 ((toCaseInsensitiveValue_eq_null r).mp h0),
        Or.inl ⟨by rw [parseReferenceValue_fold]; exact hterm.2, rfl⟩⟩
    · rw [if_neg hc] at hget
      rw [gvbr_ok_iff] at h
      obtain ⟨hne, h2⟩ := h
      rcases h2 with ⟨hp, rfl⟩ | ⟨k, val, ref, hp, hr, hrec⟩
      · refine ⟨_, ?_, rfl⟩
        rw [gvbr_ok_iff, hget]
        exact ⟨hne, Or.inl ⟨hp, rfl⟩⟩
      · obtain ⟨t1, h1, hfold⟩ := ih ref val t
          (fun x hx => hreads x (readsOf_next E st refs n src ref key k val hp hr x hx)) hrec
        refine ⟨t1, ?_, hfold⟩
        rw [gvbr_ok_iff, hget]
        exact ⟨hne, Or.inr ⟨k, val, ref, hp, hr, h1⟩⟩

/-- A failed resolution whose reads are clear of `q` fails alike after the
visit of `q`. -/
theorem gvbr_visit_panic (E : Environ) (st : Viper) (refs : GoMap (Option Source))
    (q : String) (r : Value) (hset : Settles E st refs q r)
    (hopen : isPathShadowedInDeepMap (keyPath q) st.override = false) (fuel : Nat) :
    ∀ (src : Source) (key msg : String),
      (∀ k ∈ readsOf E st refs fuel src key, ClearOf q k) →
      getValueByReference E st refs fuel src key = Outcome.panic msg →
      getValueByReference E (st.Set q r) refs fuel src key = Outcome.panic msg := by
  induction fuel with
  | zero => intro src key msg _ h; simp [getValueByReference] at h
  | succ n ih =>
    intro src key msg hreads h
    have hclear : src = Source.primary → ClearOf q key := by
      intro hs; subst hs
      exact hreads key (readsOf_primary_mem E st refs n key)
    have hget := visit_deref_get E st refs q r hset hopen src key hclear
    by_cases hc : src = Source.primary ∧ lower q = lower key
    · rw [if_pos hc] at hget
      obtain ⟨rfl, hk⟩ := hc
      simp only [Source.deref] at hget
      have hkey : st.Get E key = st.Get E q := Viper.Get_congr E st key q hk.symm
      by_cases hnull : st.Get E q = Value.null
      · have hr0 : r = Value.null := hset.null_iff.mpr hnull
        rw [gvbr_succ] at h ⊢
        simp only [Source.deref] at h ⊢
        rw [hget, hr0]
        rw [hkey, if_pos hnull] at h
        simpa [toCaseInsensitiveValue] using h
      · obtain ⟨f, hf⟩ := Resolves.at_key hk (hset.resolves_primary hnull)
        have := gvbr_det E st refs f (n + 1) _ _ _ _ hf (by simp) h (by simp)
        cases this
    · rw [if_neg hc] at hget
      rw [gvbr_succ] at h ⊢
      rw [hget]
      by_cases hg : (src.deref st).Get E key = Value.null
      · rw [if_pos hg] at h ⊢; exact h
      · rw [if_neg hg] at h ⊢
        cases hp : parseReferenceValue ((src.deref st).Get E key) with
        | none => rw [hp] at h; cases h
        | some p =>
          obtain ⟨k, val⟩ := p
          rw [hp] at h
          simp only at h ⊢
          cases hr2 : refs.get k with
          | none => rw [hr2] at h; exact h
          | some ref =>
            rw [hr2] at h
            simp only at h ⊢
            exact ih ref val msg
              (fun x hx => hreads x (readsOf_next E st refs n src ref key k val hp hr2 x hx)) h

/-- After the visit of `q`, a resolution whose reads were clear of `q` reads no
key of the primary store that it did not read before. -/
theorem readsOf_visit (E : Environ) (st : Viper) (refs : GoMap (Option Source))
    (q : String) (r : Value) (hset : Settles E st refs q r)
    (hopen : isPathShadowedInDeepMap (keyPath q) st.override = false) (fuel : Nat) :
    ∀ (src : Source) (key : String),
      (∀ k ∈ readsOf E st refs fuel src key, ClearOf q k) →
      ∀ x ∈ readsOf E (st.Set q r) refs fuel src key, x ∈ readsOf E st refs fuel src key := by
  induction fuel with
  | zero => intro src key _ x hx; simp [readsOf] at hx
  | succ n ih =>
    intro src key hreads x hx
    have hclear : src = Source.primary → ClearOf q key := by
      intro hs; subst hs
      exact hreads key (readsOf_primary_mem E st refs n key)
    have hget := visit_deref_get E st refs q r hset hopen src key hclear
    rw [readsOf_succ, hget] at hx
    rw [readsOf_succ]
    rcases List.mem_append.mp hx with hx | hx
    · exact List.mem_append_left _ hx
    · by_cases hc : src = Source.primary ∧ lower q = lower key
      · rw [if_pos hc, parseReferenceValue_fold, hset.terminal] at hx
        simp at hx
      · rw [if_neg hc] at hx
        refine List.mem_append_right _ ?_
        cases hp : parseReferenceValue ((src.deref st).Get E key) with
        | none => rw [hp] at hx; simp at hx
        | some p =>
          obtain ⟨k, val⟩ := p
          rw [hp] at hx
          simp only at hx ⊢
          cases hr2 : refs.get k with
          | none => rw [hr2] at hx; simp at hx
          | some ref =>
            rw [hr2] at hx
            simp only at hx ⊢
            exact ih ref val
              (fun y hy => hreads y (readsOf_next E st refs n src ref key k val hp hr2 y hy)) x hx

/-- A resolution that succeeds after the visit of `q`, and whose reads before
the visit are clear of `q`, succeeded before it, on the same value up to the
case of table keys. -/
theorem gvbr_visit_back (E : Environ) (st : Viper) (refs : GoMap (Option Source))
    (q : String) (r : Value) (hset : Settles E st refs q r)
    (hopen : isPathShadowedInDeepMap (keyPath q) st.override = false) (fuel : Nat) :
    ∀ (src : Source) (key : String) (t1 : Value),
      (∀ f, ∀ k ∈ readsOf E st refs f src key, ClearOf q k) →
      getValueByReference E (st.Set q r) refs fuel src key = Outcome.ok t1 →
      ∃ t, Resolves E st refs src key t ∧
        toCaseInsensitiveValue t = toCaseInsensitiveValue t1 := by
  induction fuel with
  | zero => intro src key t1 _ h; simp [getValueByReference] at h
  | succ n ih =>
    intro src key t1 hreads h
    have hclear : src = Source.primary → ClearOf q key := by
      intro hs; subst hs
      exact hreads 1 key (readsOf_primary_mem E st refs 0 key)
    have hget := visit_deref_get E st refs q r hset hopen src key hclear
    rw [gvbr_ok_iff, hget] at h
    obtain ⟨hne, h2⟩ := h
    by_cases hc : src = Source.primary ∧ lower q = lower key
    · rw [if_pos hc] at hne h2
      obtain ⟨rfl, hk⟩ := hc
      rw [parseReferenceValue_fold, hset.terminal] at h2
      rcases h2 with ⟨_, rfl⟩ | ⟨k, val, ref, hp, _, _⟩
      · have hrne : r ≠ Value.null := fun h0 => hne (by rw [h0]; rfl)
        have hq : st.Get E q ≠ Value.null := fun h0 => hrne (hset.null_iff.mpr h0)
        exact ⟨r, Resolves.at_key hk (hset.resolves_primary hq),
          (toCaseInsensitiveValue_idem r).symm⟩
      · cases hp
    · rw [if_neg hc] at hne h2
      rcases h2 with ⟨hp, rfl⟩ | ⟨k, val, ref, hp, hr, hrec⟩
      · exact ⟨_, ⟨1, by rw [gvbr_ok_iff]; exact ⟨hne, Or.inl ⟨hp, rfl⟩⟩⟩, rfl⟩
      · obtain ⟨t, ⟨f, hf⟩, hfold⟩ := ih ref val t1
          (fun f x hx => hreads (f + 1) x
            (readsOf_next E st refs f src ref key k val hp hr x hx)) hrec
        exact ⟨t, ⟨f + 1, by rw [gvbr_ok_iff]; exact ⟨hne, Or.inr ⟨k, val, ref, hp, hr, hf⟩⟩⟩,
          hfold⟩

/-! ## Settled values through one visit -/

theorem Settles.of_none {E : Environ} {st : Viper} {refs : GoMap (Option Source)}
    {key : String} (hp : parseReferenceValue (st.Get E key) = none) :
    Settles E st refs key (st.Get E key) := by
  unfold Settles; rw [hp]

theorem Settles.eq_of_none {E : Environ} {st : Viper} {refs : GoMap (Option Source)}
    {key : String} {r : Value} (h : Settles E st refs key r)
    (hp : parseReferenceValue (st.Get E key) = none) : r = st.Get E key := by
  unfold Settles at h; rw [hp] at h; exact h

theorem Settles.of_some {E : Environ} {st : Viper} {refs : GoMap (Option Source)}
    {key s k : String} {ref : Source} {t : Value}
    (hp : parseReferenceValue (st.Get E key) = some (s, k)) (hr : refs.get s = some ref)
    (hres : Resolves E st refs ref k t) : Settles E st refs key t := by
  unfold Settles; rw [hp]; exact ⟨ref, t, hr, hres, rfl⟩

theorem Settles.inv_some {E : Environ} {st : Viper} {refs : GoMap (Option Source)}
    {key s k : String} {r : Value} (h : Settles E st refs key r)
    (hp : parseReferenceValue (st.Get E key) = some (s, k)) :
    ∃ ref, refs.get s = some ref ∧ Resolves E st refs ref k r := by
  unfold Settles at h; rw [hp] at h
  obtain ⟨ref, t, hr, hres, rfl⟩ := h
  exact ⟨ref, hr, hres⟩

/-- A key whose resolution reads keys clear of `q` settles after the visit of
`q` as it did before, up to the case of table keys. -/
theorem settles_visit (E : Environ) (st : Viper) (refs : GoMap (Option Source))
    (q : String) (rq : Value) (hset : Settles E st refs q rq)
    (hopen : isPathShadowedInDeepMap (keyPath q) st.override = false) (j : String)
    (hreads : ∀ f, ∀ k ∈ readsOf E st refs f Source.primary j, ClearOf q k) (r : Value)
    (h : Settles E st refs j r) :
    ∃ r1, Settles E (st.Set q rq) refs j r1 ∧
      toCaseInsensitiveValue r1 = toCaseInsensitiveValue r := by
  by_cases hk : lower q = lower j
  · have hr : r = rq := h.settled_unique (hset.congr_key hk)
    have hget := visit_get_same E st refs q j rq hset hopen hk
    refine ⟨toCaseInsensitiveValue rq, ?_, by rw [toCaseInsensitiveValue_idem, hr]⟩
    have hp : parseReferenceValue ((st.Set q rq).Get E j) = none := by
      rw [hget, parseReferenceValue_fold]; exact hset.terminal
    have := @Settles.of_none E (st.Set q rq) refs j hp
    rw [hget] at this
    exact this
  · have hapart : comparable (keyPath q) (keyPath j) = false := by
      rcases hreads 1 j (readsOf_primary_mem E st refs 0 j) with h1 | h1
      · exact absurd h1 hk
      · exact h1
    have hget := Viper.Get_Set_apart E st q j rq hopen hapart
    cases hp : parseReferenceValue (st.Get E j) with
    | none =>
      have hr := h.eq_of_none hp
      refine ⟨r, ?_, rfl⟩
      have := @Settles.of_none E (st.Set q rq) refs j
        (show parseReferenceValue ((st.Set q rq).Get E j) = none by rw [hget]; exact hp)
      rw [hget, ← hr] at this
      exact this
    | some p =>
      obtain ⟨s, k⟩ := p
      obtain ⟨ref, hr, ⟨f, hf⟩⟩ := h.inv_some hp
      obtain ⟨t1, h1, hfold⟩ := gvbr_visit_ok E st refs q rq hset hopen f ref k r
        (fun x hx => hreads (f + 1) x
          (readsOf_next E st refs f Source.primary ref j s k hp hr x hx)) hf
      exact ⟨t1, Settles.of_some (by rw [hget]; exact hp) hr ⟨f, h1⟩, hfold⟩

/-- A key that settles after the visit of `q`, and whose resolution read keys
clear of `q`, settled before the visit. -/
theorem settles_visit_back (E : Environ) (st : Viper) (refs : GoMap (Option Source))
    (q : String) (rq : Value) (hset : Settles E st refs q rq)
    (hopen : isPathShadowedInDeepMap (keyPath q) st.override = false) (j : String)
    (hreads : ∀ f, ∀ k ∈ readsOf E st refs f Source.primary j, ClearOf q k) (r1 : Value)
    (h : Settles E (st.Set q rq) refs j r1) : ∃ r, Settles E st refs j r := by
  by_cases hk : lower q = lower j
  · exact ⟨rq, hset.congr_key hk⟩
  · have hapart : comparable (keyPath q) (keyPath j) = false := by
      rcases hreads 1 j (readsOf_primary_mem E st refs 0 j) with h1 | h1
      · exact absurd h1 hk
      · exact h1
    have hget := Viper.Get_Set_apart E st q j rq hopen hapart
    cases hp : parseReferenceValue (st.Get E j) with
    | none => exact ⟨_, Settles.of_none hp⟩
    | some p =>
      obtain ⟨s, k⟩ := p
      obtain ⟨ref, hr, ⟨f, hf⟩⟩ := h.inv_some (by rw [hget]; exact hp)
      obtain ⟨t, ht, _⟩ := gvbr_visit_back E st refs q rq hset hopen f ref k r1
        (fun f2 x hx => hreads (f2 + 1) x
          (readsOf_next E st refs f2 Source.primary ref j s k hp hr x hx)) hf
      exact ⟨t, Settles.of_some hp hr ht⟩

/-- The reads of a resolution stay clear of the listed keys through the visit
of one of them. -/
theorem ClearWalk.through_visit {E : Environ} {order : List String} {st : Viper}
    {refs : GoMap (Option Source)} {src : Source} {key : String}
    (hwalk : ClearWalk E order st refs src key) (q : String) (hq : q ∈ order) (rq : Value)
    (hset : Settles E st refs q rq)
    (hopen : isPathShadowedInDeepMap (keyPath q) st.override = false) :
    ClearWalk E order (st.Set q rq) refs src key := by
  intro f k hk
  exact hwalk f k (readsOf_visit E st refs q rq hset hopen f src key
    (fun x hx => hwalk f x hx q hq) k hk)

/-- The listed keys stay unshadowed through the visit of one of them. -/
theorem Open.after_visit {st : Viper} {order : List String} (hopen : Open st order)
    (hanti : ∀ q ∈ order, Clear order q) (q : String) (hq : q ∈ order) (x : Value) :
    Open (st.Set q x) order := by
  intro k hk
  exact Viper.open_Set st q k x (hopen q hq) (hopen k hk) (hanti k hk q hq)

/-! ## The pass -/

theorem Config.key_root (g : Config) (h : g.pfx = "") (k : String) : g.key k = k := by
  simp [Config.key, h]

theorem Config.Get_root (E : Environ) (g : Config) (hg : g.pfx = "") (k : String) (st : Viper) :
    g.Get E k st = getValue E st k := by
  simp [Config.Get, Config.key_root g hg]

theorem getValue_ok (E : Environ) (st : Viper) (k : String) (t : Value) :
    getValue E st k = Outcome.ok t ↔ st.Get E k = t ∧ t ≠ Value.null := by
  unfold getValue
  cases h : st.Get E k <;> simp
  all_goals (intro h2; subst h2; simp)

theorem resolveKey_ok (E : Environ) (fuel : Nat) (g : Config) (hg : g.pfx = "") (key : String)
    (st st1 : Viper) (h : resolveKey E fuel g key st = Outcome.ok st1) :
    ∃ r, st1 = st.Set key r ∧ Settles E st g.references key r := by
  unfold resolveKey at h
  simp only [Config.Set, Config.key_root g hg] at h
  cases hp : parseReferenceValue (st.Get E key) with
  | none =>
    rw [hp] at h
    simp only [Outcome.ok.injEq] at h
    exact ⟨st.Get E key, h.symm, Settles.of_none hp⟩
  | some p =>
    obtain ⟨s, k⟩ := p
    rw [hp] at h
    simp only at h
    cases hr : g.references.get s with
    | none => rw [hr] at h; cases h
    | some ref =>
      rw [hr] at h
      simp only at h
      cases hres : getValueByReference E st g.references fuel ref k with
      | ok t =>
        rw [hres] at h
        simp only [Outcome.ok.injEq] at h
        exact ⟨t, h.symm, Settles.of_some hp hr ⟨fuel, hres⟩⟩
      | panic msg => rw [hres] at h; cases h
      | overflow => rw [hres] at h; cases h

theorem parseReferences_nil (E : Environ) (fuel : Nat) (g : Config) (st : Viper) :
    parseReferences E fuel g [] st = Outcome.ok st := rfl

theorem parseReferences_step (E : Environ) (fuel : Nat) (g : Config) (key : String)
    (rest : List String) (st : Viper) :
    parseReferences E fuel g (key :: rest) st =
      match resolveKey E fuel g key st with
      | Outcome.ok st1 => parseReferences E fuel g rest st1
      | Outcome.panic msg => Outcome.panic msg
      | Outcome.overflow => Outcome.overflow := by
  simp only [parseReferences, ForEach]
  cases resolveKey E fuel g key st <;> rfl

theorem parseReferences_cons (E : Environ) (fuel : Nat) (g : Config) (key : String)
    (rest : List String) (st st2 : Viper) :
    parseReferences E fuel g (key :: rest) st = Outcome.ok st2 ↔
      ∃ st1, resolveKey E fuel g key st = Outcome.ok st1 ∧
        parseReferences E fuel g rest st1 = Outcome.ok st2 := by
  simp only [parseReferences_nil, parseReferences_step]
  cases h : resolveKey E fuel g key st with
  | ok st1 => simp
  | panic msg => simp
  | overflow => simp

/-- The pass over a list that starts with keys whose visits return goes on, on
the store they leave, with the rest of the list. -/
theorem parseReferences_append (E : Environ) (fuel : Nat) (g : Config) (pre : List String) :
    ∀ (rest : List String) (st st1 : Viper),
      parseReferences E fuel g pre st = Outcome.ok st1 →
      parseReferences E fuel g (pre ++ rest) st = parseReferences E fuel g rest st1 := by
  induction pre with
  | nil => intro rest st st1 h; rw [parseReferences_nil] at h; cases h; rfl
  | cons q pre ih =>
    intro rest st st1 h
    obtain ⟨st0, h0, h1⟩ := (parseReferences_cons E fuel g q pre st st1).mp h
    rw [List.cons_append, parseReferences_step, h0]
    exact ih rest st0 st1 h1

/-- A pass that returns over a list returned over each part of it. -/
theorem parseReferences_split (E : Environ) (fuel : Nat) (g : Config) (pre : List String) :
    ∀ (rest : List String) (st st2 : Viper),
      parseReferences E fuel g (pre ++ rest) st = Outcome.ok st2 →
      ∃ st1, parseReferences E fuel g pre st = Outcome.ok st1 ∧
        parseReferences E fuel g rest st1 = Outcome.ok st2 := by
  induction pre with
  | nil => intro rest st st2 h; exact ⟨st, rfl, h⟩
  | cons q pre ih =>
    intro rest st st2 h
    rw [List.cons_append] at h
    obtain ⟨st0, h0, h1⟩ := (parseReferences_cons E fuel g q (pre ++ rest) st st2).mp h
    obtain ⟨st1, h2, h3⟩ := ih rest st0 st2 h1
    exact ⟨st1, (parseReferences_cons E fuel g q pre st st1).mpr ⟨st0, h0, h2⟩, h3⟩

theorem NewConfig_ok (E : Environ) (fuel : Nat) (order : List String) (v : Viper)
    (references : GoMap (Option Source)) (c : Config) (st : Viper) :
    NewConfig E fuel order v references = Outcome.ok (c, st) ↔
      c = { references := sourceRegistry references, pfx := "" } ∧
      parseReferences E fuel c order v = Outcome.ok st := by
  simp only [NewConfig]
  cases h : parseReferences E fuel { references := sourceRegistry references, pfx := "" } order v with
  | ok st1 =>
    simp only [Outcome.ok.injEq, Prod.mk.injEq]
    constructor
    · rintro ⟨rfl, rfl⟩; exact ⟨rfl, h⟩
    · rintro ⟨rfl, h2⟩; rw [h] at h2; exact ⟨rfl, Outcome.ok.inj h2⟩
  | panic msg =>
    constructor
    · intro h2; cases h2
    · rintro ⟨rfl, h2⟩; rw [h] at h2; cases h2
  | overflow =>
    constructor
    · intro h2; cases h2
    · rintro ⟨rfl, h2⟩; rw [h] at h2; cases h2

/-- An invariant of the store that every visit of a listed key keeps holds
after the pass. -/
theorem parseReferences_induct (E : Environ) (fuel : Nat) (g : Config) (hg : g.pfx = "")
    (order : List String) (hanti : ∀ q ∈ order, Clear order q) (Inv : Viper → Prop)
    (hstep : ∀ st q r, q ∈ order → Open st order → Inv st →
      Settles E st g.references q r → Inv (st.Set q r)) :
    ∀ (rest : List String) (st stf : Viper), (∀ q ∈ rest, q ∈ order) → Open st order →
      Inv st → parseReferences E fuel g rest st = Outcome.ok stf →
      Open stf order ∧ Inv stf := by
  intro rest
  induction rest with
  | nil =>
    intro st stf _ hopen hinv h
    rw [parseReferences_nil] at h
    cases h
    exact ⟨hopen, hinv⟩
  | cons q rest ih =>
    intro st stf hsub hopen hinv h
    obtain ⟨st1, h1, h2⟩ := (parseReferences_cons E fuel g q rest st stf).mp h
    obtain ⟨r, rfl, hset⟩ := resolveKey_ok E fuel g hg q st st1 h1
    have hq : q ∈ order := hsub q (List.mem_cons_self _ _)
    exact ih (st.Set q r) stf (fun k hk => hsub k (List.mem_cons_of_mem _ hk))
      (hopen.after_visit hanti q hq r) (hstep st q r hq hopen hinv hset) h2

/-! ## Keys that the pass has visited -/

theorem Viper.Set_congr (v : Viper) (k k2 : String) (x : Value) (h : lower k = lower k2) :
    v.Set k x = v.Set k2 x := by
  simp [Viper.Set, h]

theorem Viper.Set_eq_self_iff (v : Viper) (k : String) (x : Value) :
    v.Set k x = v ↔ deepSet v.override (keyPath k) (toCaseInsensitiveValue x) = v.override := by
  constructor
  · intro h
    have := congrArg Viper.override h
    exact this
  · intro h
    cases v
    simp only [Viper.Set, keyPath] at h ⊢
    rw [h]

/-- Once a key holds a value that is no reference and that `Set` writes back
without a change, the visit of a key that is the same or apart leaves it so. -/
theorem held_visit (E : Environ) (st : Viper) (refs : GoMap (Option Source))
    (q : String) (r : Value) (hset : Settles E st refs q r)
    (hopen : isPathShadowedInDeepMap (keyPath q) st.override = false) (k : String)
    (hclear : ClearOf q k) (hp : parseReferenceValue (st.Get E k) = none)
    (hfix : st.Set k (st.Get E k) = st) :
    (st.Set q r).Get E k = st.Get E k ∧ (st.Set q r).Set k (st.Get E k) = st.Set q r := by
  by_cases hk : lower q = lower k
  · have hgq : st.Get E q = st.Get E k := Viper.Get_congr E st q k hk
    have hr : r = st.Get E k := by rw [← hgq]; exact hset.eq_of_none (by rw [hgq]; exact hp)
    have hst : st.Set q r = st := by rw [hr, Viper.Set_congr st q k _ hk]; exact hfix
    rw [hst]
    exact ⟨rfl, hfix⟩
  · have hapart : comparable (keyPath q) (keyPath k) = false := by
      rcases hclear with h1 | h1
      · exact absurd h1 hk
      · exact h1
    refine ⟨Viper.Get_Set_apart E st q k r hopen hapart, ?_⟩
    rw [Viper.Set_eq_self_iff, Viper.Set_override]
    exact deepSet_fixed_apart (keyPath k) (keyPath q) st.override _ _
      ((Viper.Set_eq_self_iff st k _).mp hfix) (by rw [comparable_symm]; exact hapart)

/-- What the visit of a key leaves under it. -/
theorem visit_held (E : Environ) (st : Viper) (refs : GoMap (Option Source))
    (q : String) (r : Value) (hset : Settles E st refs q r)
    (hopen : isPathShadowedInDeepMap (keyPath q) st.override = false) :
    (st.Set q r).Get E q = toCaseInsensitiveValue r ∧
      (st.Set q r).Set q (toCaseInsensitiveValue r) = st.Set q r := by
  refine ⟨visit_get_same E st refs q q r hset hopen rfl, ?_⟩
  rw [Viper.Set_eq_self_iff, Viper.Set_override, toCaseInsensitiveValue_idem]
  exact deepSet_idem _ _ _

/-- After a pass that returns, a listed key holds the value it settled to in
the store the pass had reached when it visited the key, and `Set` writes that
value back without a change.  `Inv` is any property of the store that the
visits keep. -/
theorem parseReferences_visited (E : Environ) (fuel : Nat) (g : Config) (hg : g.pfx = "")
    (order : List String) (hanti : ∀ q ∈ order, Clear order q) (Inv : Viper → Prop)
    (hstep : ∀ st q r, q ∈ order → Open st order → Inv st →
      Settles E st g.references q r → Inv (st.Set q r))
    (a : String) (ha : a ∈ order) (st stf : Viper) (hopen : Open st order) (hinv : Inv st)
    (h : parseReferences E fuel g order st = Outcome.ok stf) :
    ∃ st1 r, Inv st1 ∧ Settles E st1 g.references a r ∧
      stf.Get E a = toCaseInsensitiveValue r ∧
      stf.Set a (toCaseInsensitiveValue r) = stf := by
  obtain ⟨pre, post, hsplit⟩ := List.append_of_mem ha
  have hpre : ∀ q ∈ pre, q ∈ order := fun q hq => by
    rw [hsplit]; exact List.mem_append_left _ hq
  have hpost : ∀ q ∈ post, q ∈ order := fun q hq => by
    rw [hsplit]; exact List.mem_append_right _ (List.mem_cons_of_mem _ hq)
  have h2 : parseReferences E fuel g (pre ++ a :: post) st = Outcome.ok stf := by
    rw [← hsplit]; exact h
  obtain ⟨st1, hp1, hp2⟩ := parseReferences_split E fuel g pre (a :: post) st stf h2
  obtain ⟨hopen1, hinv1⟩ :=
    parseReferences_induct E fuel g hg order hanti Inv hstep pre st st1 hpre hopen hinv hp1
  obtain ⟨st2, hv, hp3⟩ := (parseReferences_cons E fuel g a post st1 stf).mp hp2
  obtain ⟨r, rfl, hset⟩ := resolveKey_ok E fuel g hg a st1 st2 hv
  refine ⟨st1, r, hinv1, hset, ?_⟩
  obtain ⟨hget, hfix⟩ := visit_held E st1 g.references a r hset (hopen1 a ha)
  have hterm : parseReferenceValue (toCaseInsensitiveValue r) = none := by
    rw [parseReferenceValue_fold]; exact hset.terminal
  have := parseReferences_induct E fuel g hg order hanti
    (fun s => s.Get E a = toCaseInsensitiveValue r ∧ s.Set a (toCaseInsensitiveValue r) = s)
    (fun s q rq hq ho hs hsq => by
      obtain ⟨hs1, hs2⟩ := hs
      have := held_visit E s g.references q rq hsq (ho q hq) a (hanti a ha q hq)
        (by rw [hs1]; exact hterm) (by rw [hs1]; exact hs2)
      rw [hs1] at this
      exact this)
    post (st1.Set a r) stf hpost (hopen1.after_visit hanti a ha r) ⟨hget, hfix⟩ hp3
  exact this.2

/-- A pass over keys that hold no reference and that `Set` writes back without
a change returns the store as it found it, whatever the depth of the call
stack. -/
theorem parseReferences_fixed (E : Environ) (fuel : Nat) (g : Config) (hg : g.pfx = "")
    (st : Viper) : ∀ (rest : List String),
      (∀ k ∈ rest, parseReferenceValue (st.Get E k) = none ∧ st.Set k (st.Get E k) = st) →
      parseReferences E fuel g rest st = Outcome.ok st := by
  intro rest
  induction rest with
  | nil => intro _; rfl
  | cons k rest ih =>
    intro h
    obtain ⟨hp, hfix⟩ := h k (List.mem_cons_self _ _)
    have hv : resolveKey E fuel g k st = Outcome.ok st := by
      simp only [resolveKey, hp, Config.Set, Config.key_root g hg, hfix]
    rw [parseReferences_step, hv]
    exact ih (fun j hj => h j (List.mem_cons_of_mem _ hj))

/-- A key that the pass visits from a store in which it settles is settled by
deep enough a call stack. -/
theorem resolveKey_of_settles (E : Environ) (g : Config) (hg : g.pfx = "") (key : String)
    (st : Viper) (r : Value) (h : Settles E st g.references key r) :
    ∃ f0, ∀ f, f0 ≤ f → resolveKey E f g key st = Outcome.ok (st.Set key r) := by
  cases hp : parseReferenceValue (st.Get E key) with
  | none =>
    have hr := h.eq_of_none hp
    refine ⟨0, fun f _ => ?_⟩
    simp only [resolveKey, hp, Config.Set, Config.key_root g hg, hr]
  | some p =>
    obtain ⟨s, k⟩ := p
    obtain ⟨ref, hr, ⟨f0, hf0⟩⟩ := h.inv_some hp
    refine ⟨f0, fun f hf => ?_⟩
    have := gvbr_mono E st g.references f0 ref k _ hf0 (by simp) f hf
    simp only [resolveKey, hp, hr, this, Config.Set, Config.key_root g hg]

/-- The pass returns, for every deep enough call stack, as soon as every key
it visits settles in the store it starts from and reads, on the way, only keys
clear of the listed ones. -/
theorem parseReferences_complete (E : Environ) (g : Config) (hg : g.pfx = "")
    (order : List String) (hanti : ∀ q ∈ order, Clear order q) :
    ∀ (rest : List String) (st : Viper), (∀ q ∈ rest, q ∈ order) → Open st order →
      (∀ k ∈ rest, ClearWalk E order st g.references Source.primary k) →
      (∀ k ∈ rest, ∃ r, Settles E st g.references k r) →
      ∃ f0, ∀ f, f0 ≤ f → ∃ stf, parseReferences E f g rest st = Outcome.ok stf := by
  intro rest
  induction rest with
  | nil => intro st _ _ _ _; exact ⟨0, fun f _ => ⟨st, rfl⟩⟩
  | cons q rest ih =>
    intro st hsub hopen hwalk hall
    have hq : q ∈ order := hsub q (List.mem_cons_self _ _)
    obtain ⟨rq, hset⟩ := hall q (List.mem_cons_self _ _)
    obtain ⟨f1, hf1⟩ := resolveKey_of_settles E g hg q st rq hset
    obtain ⟨f2, hf2⟩ := ih (st.Set q rq) (fun k hk => hsub k (List.mem_cons_of_mem _ hk))
      (hopen.after_visit hanti q hq rq)
      (fun k hk => (hwalk k (List.mem_cons_of_mem _ hk)).through_visit q hq rq hset (hopen q hq))
      (fun k hk => by
        obtain ⟨r, hr⟩ := hall k (List.mem_cons_of_mem _ hk)
        obtain ⟨r1, hr1, _⟩ := settles_visit E st g.references q rq hset (hopen q hq) k
          (fun f x hx => hwalk k (List.mem_cons_of_mem _ hk) f x hx q hq) r hr
        exact ⟨r1, hr1⟩)
    refine ⟨max f1 f2, fun f hf => ?_⟩
    obtain ⟨stf, hstf⟩ := hf2 f (le_trans (le_max_right _ _) hf)
    exact ⟨stf, by rw [parseReferences_step, hf1 f (le_trans (le_max_left _ _) hf)]; exact hstf⟩

/-- After a pass that returns, a listed key whose resolution reads keys clear
of the listed ones holds the value it settled to in the store the pass started
from, up to the case of table keys. -/
theorem parseReferences_sound (E : Environ) (fuel : Nat) (g : Config) (hg : g.pfx = "")
    (order : List String) (hanti : ∀ q ∈ order, Clear order q) (a : String) (ha : a ∈ order)
    (st stf : Viper) (hopen : Open st order)
    (hwalk : ClearWalk E order st g.references Source.primary a) (r : Value)
    (hset : Settles E st g.references a r)
    (h : parseReferences E fuel g order st = Outcome.ok stf) :
    stf.Get E a = toCaseInsensitiveValue r := by
  obtain ⟨st1, r1, ⟨hw1, r2, hs2, hfold⟩, hs1, hget, _⟩ :=
    parseReferences_visited E fuel g hg order hanti
      (fun s => ClearWalk E order s g.references Source.primary a ∧
        ∃ r2, Settles E s g.references a r2 ∧
          toCaseInsensitiveValue r2 = toCaseInsensitiveValue r)
      (fun s q rq hq ho hs hsq => by
        obtain ⟨hw, r2, hs2, hfold⟩ := hs
        obtain ⟨r3, hs3, hfold3⟩ := settles_visit E s g.references q rq hsq (ho q hq) a
          (fun f x hx => hw f x hx q hq) r2 hs2
        exact ⟨hw.through_visit q hq rq hsq (ho q hq), r3, hs3, by rw [hfold3, hfold]⟩)
      a ha st stf hopen ⟨hwalk, r, hset, rfl⟩ h
  rw [hget, hs1.settled_unique hs2, hfold]

/-- A listed key whose resolution reads keys clear of the listed ones settles
in the store the pass starts from as soon as the pass returns. -/
theorem parseReferences_settled (E : Environ) (fuel : Nat) (g : Config) (hg : g.pfx = "")
    (order : List String) (hanti : ∀ q ∈ order, Clear order q) (a : String) (ha : a ∈ order)
    (st stf : Viper) (hopen : Open st order)
    (hwalk : ClearWalk E order st g.references Source.primary a)
    (h : parseReferences E fuel g order st = Outcome.ok stf) :
    ∃ r, Settles E st g.references a r := by
  obtain ⟨st1, r1, ⟨_, hback⟩, hs1, _, _⟩ :=
    parseReferences_visited E fuel g hg order hanti
      (fun s => ClearWalk E order s g.references Source.primary a ∧
        ((∃ r1, Settles E s g.references a r1) → ∃ r, Settles E st g.references a r))
      (fun s q rq hq ho hs hsq => by
        obtain ⟨hw, hback⟩ := hs
        refine ⟨hw.through_visit q hq rq hsq (ho q hq), ?_⟩
        rintro ⟨r1, hr1⟩
        exact hback (settles_visit_back E s g.references q rq hsq (ho q hq) a
          (fun f x hx => hw f x hx q hq) r1 hr1))
      a ha st stf hopen ⟨hwalk, fun h => h⟩ h
  exact hback ⟨r1, hs1⟩

/-- A key that is clear of the listed keys and is none of them reads after the
pass what it read before. -/
theorem parseReferences_frame (E : Environ) (fuel : Nat) (g : Config) (hg : g.pfx = "")
    (order : List String) (hanti : ∀ q ∈ order, Clear order q) (k : String)
    (hclear : Clear order k) (hnot : ∀ q ∈ order, lower q ≠ lower k)
    (st stf : Viper) (hopen : Open st order)
    (h : parseReferences E fuel g order st = Outcome.ok stf) :
    stf.Get E k = st.Get E k := by
  have := parseReferences_induct E fuel g hg order hanti (fun s => s.Get E k = st.Get E k)
    (fun s q rq hq ho hs _ => by
      rcases hclear q hq with h1 | h1
      · exact absurd h1 (hnot q hq)
      · rw [Viper.Get_Set_apart E s q k rq (ho q hq) h1]; exact hs)
    order st stf (fun q hq => hq) hopen rfl h
  exact this.2

/-! ## Chains, and resolutions that fail -/

theorem Chain.to_ok {E : Environ} {st : Viper} {refs : GoMap (Option Source)}
    {src : Source} {key : String} {n : Nat} {t : Value} (h : Chain E st refs src key n t) :
    getValueByReference E st refs n src key = Outcome.ok t := by
  induction h with
  | last hg hne hp =>
    rw [gvbr_ok_iff, hg]
    exact ⟨hne, Or.inl ⟨hp, rfl⟩⟩
  | hop hg hs hk hr _ ih =>
    rw [gvbr_ok_iff, hg]
    exact ⟨by simp, Or.inr ⟨_, _, _, parseReferenceValue_token _ _ hs hk, hr, ih⟩⟩

theorem Chain.pos {E : Environ} {st : Viper} {refs : GoMap (Option Source)}
    {src : Source} {key : String} {n : Nat} {t : Value} (h : Chain E st refs src key n t) :
    1 ≤ n := by
  cases h <;> omega

/-- A token whose chain breaks makes the lookup that follows it panic. -/
theorem Breaks.panics {E : Environ} {st : Viper} {refs : GoMap (Option Source)}
    {s k : String} (h : Breaks E st refs s k) (key : String) (src : Source)
    (hg : (src.deref st).Get E key = Value.str (token s k))
    (hs : isName s = true) (hk : isPath k = true) :
    ∃ f msg, getValueByReference E st refs f src key = Outcome.panic msg := by
  induction h generalizing key src with
  | @noSource s k hr =>
    refine ⟨1, "no reference found for: " ++ s, ?_⟩
    rw [gvbr_succ, hg]
    simp only [parseReferenceValue_token _ _ hs hk, hr]
    simp
  | @noKey s k src2 hr hnone =>
    refine ⟨2, "key not found in config " ++ k, ?_⟩
    rw [gvbr_succ, hg]
    simp only [parseReferenceValue_token _ _ hs hk, hr]
    rw [gvbr_succ, hnone]
    simp
  | hop hr hg2 hs2 hk2 _ ih =>
    obtain ⟨f, msg, hf⟩ := ih _ _ hg2 hs2 hk2
    refine ⟨f + 1, msg, ?_⟩
    rw [gvbr_succ, hg]
    simp only [parseReferenceValue_token _ _ hs hk, hr]
    simpa using hf

theorem resolveKey_eq_gvbr (E : Environ) (fuel : Nat) (g : Config) (key : String) (st : Viper) :
    resolveKey E fuel g key st =
      match getValueByReference E st g.references (fuel + 1) Source.primary key with
      | Outcome.ok t => Outcome.ok (g.Set key t st)
      | Outcome.panic msg =>
        if st.Get E key = Value.null then Outcome.ok (g.Set key Value.null st)
        else Outcome.panic msg
      | Outcome.overflow => Outcome.overflow := by
  rw [gvbr_succ]
  simp only [resolveKey, Source.deref]
  by_cases hg : st.Get E key = Value.null
  · simp [hg, parseReferenceValue_null]
  · rw [if_neg hg]
    cases hp : parseReferenceValue (st.Get E key) with
    | none => simp
    | some p =>
      obtain ⟨s, k⟩ := p
      simp only
      cases hr : g.references.get s with
      | none => simp [hg]
      | some ref =>
        simp only
        cases getValueByReference E st g.references fuel ref k <;> simp [hg]

theorem resolveKey_mono (E : Environ) (g : Config) (key : String) (st : Viper) (f f2 : Nat)
    (r : Outcome Viper) (h : resolveKey E f g key st = r) (hr : r ≠ Outcome.overflow)
    (hle : f ≤ f2) : resolveKey E f2 g key st = r := by
  rw [resolveKey_eq_gvbr] at h ⊢
  cases hres : getValueByReference E st g.references (f + 1) Source.primary key with
  | overflow => rw [hres] at h; exact absurd h.symm hr
  | ok t =>
    rw [gvbr_mono E st g.references (f + 1) _ _ _ hres (by simp) (f2 + 1) (by omega)]
    rw [hres] at h; exact h
  | panic msg =>
    rw [gvbr_mono E st g.references (f + 1) _ _ _ hres (by simp) (f2 + 1) (by omega)]
    rw [hres] at h; exact h

theorem resolveKey_det (E : Environ) (g : Config) (key : String) (st : Viper) (f f2 : Nat)
    (r r2 : Outcome Viper) (h : resolveKey E f g key st = r) (hr : r ≠ Outcome.overflow)
    (h2 : resolveKey E f2 g key st = r2) (hr2 : r2 ≠ Outcome.overflow) : r = r2 := by
  have a := resolveKey_mono E g key st f (max f f2) r h hr (le_max_left _ _)
  have b := resolveKey_mono E g key st f2 (max f f2) r2 h2 hr2 (le_max_right _ _)
  rw [a] at b
  exact b

theorem Breaks.resolveKey_panics {E : Environ} {st : Viper} {g : Config}
    {s k : String} (h : Breaks E st g.references s k) (key : String)
    (hg : st.Get E key = Value.str (token s k))
    (hs : isName s = true) (hk : isPath k = true) :
    ∃ f msg, resolveKey E f g key st = Outcome.panic msg := by
  obtain ⟨f, msg, hf⟩ := h.panics key Source.primary hg hs hk
  refine ⟨f, msg, ?_⟩
  rw [resolveKey_eq_gvbr, gvbr_mono E st g.references f _ _ _ hf (by simp) (f + 1) (by omega)]
  simp [hg]

/-- A visit that panics, on a key whose resolution reads keys clear of `q`,
panics alike after the visit of `q`. -/
theorem resolveKey_visit_panic (E : Environ) (g : Config) (hg : g.pfx = "") (st : Viper)
    (q : String) (rq : Value) (hset : Settles E st g.references q rq)
    (hopen : isPathShadowedInDeepMap (keyPath q) st.override = false) (f : Nat) (j msg : String)
    (hreads : ∀ f, ∀ k ∈ readsOf E st g.references f Source.primary j, ClearOf q k)
    (h : resolveKey E f g j st = Outcome.panic msg) :
    resolveKey E f g j (st.Set q rq) = Outcome.panic msg := by
  have hapart : comparable (keyPath q) (keyPath j) = false := by
    rcases hreads 1 j (readsOf_primary_mem E st g.references 0 j) with h1 | h1
    · obtain ⟨f0, hf0⟩ := resolveKey_of_settles E g hg j st rq (hset.congr_key h1)
      have := resolveKey_det E g j st f0 f _ _ (hf0 f0 le_rfl) (by simp) h (by simp)
      cases this
    · exact h1
  have hget := Viper.Get_Set_apart E st q j rq hopen hapart
  rw [resolveKey_eq_gvbr] at h ⊢
  cases hres : getValueByReference E st g.references (f + 1) Source.primary j with
  | ok t => rw [hres] at h; cases h
  | overflow => rw [hres] at h; cases h
  | panic m =>
    rw [hres] at h
    simp only at h
    rw [gvbr_visit_panic E st g.references q rq hset hopen (f + 1) Source.primary j m
      (hreads (f + 1)) hres]
    simp only
    rw [hget]
    by_cases h0 : st.Get E j = Value.null
    · rw [if_pos h0] at h; cases h
    · rw [if_neg h0] at h ⊢; exact h

/-- A visit that finishes, on a key whose resolution reads keys clear of `q`,
finishes after the visit of `q`. -/
theorem resolveKey_visit_finishes (E : Environ) (g : Config) (hg : g.pfx = "") (st : Viper)
    (q : String) (rq : Value) (hset : Settles E st g.references q rq)
    (hopen : isPathShadowedInDeepMap (keyPath q) st.override = false) (j : String)
    (hreads : ∀ f, ∀ k ∈ readsOf E st g.references f Source.primary j, ClearOf q k)
    (h : ∃ f, resolveKey E f g j st ≠ Outcome.overflow) :
    ∃ f, resolveKey E f g j (st.Set q rq) ≠ Outcome.overflow := by
  obtain ⟨f, hf⟩ := h
  cases hres : resolveKey E f g j st with
  | overflow => exact absurd hres hf
  | panic msg =>
    exact ⟨f, by rw [resolveKey_visit_panic E g hg st q rq hset hopen f j msg hreads hres]; simp⟩
  | ok st1 =>
    obtain ⟨r, _, hsetj⟩ := resolveKey_ok E f g hg j st st1 hres
    obtain ⟨r1, hr1, _⟩ := settles_visit E st g.references q rq hset hopen j hreads r hsetj
    obtain ⟨f0, hf0⟩ := resolveKey_of_settles E g hg j _ r1 hr1
    exact ⟨f0, by rw [hf0 f0 le_rfl]; simp⟩

/-- When the visit of some key panics and the visit of no key recurses without
bound, the pass panics for every deep enough call stack. -/
theorem parseReferences_panics (E : Environ) (g : Config) (hg : g.pfx = "")
    (order : List String) (hanti : ∀ q ∈ order, Clear order q) :
    ∀ (rest : List String) (st : Viper), (∀ q ∈ rest, q ∈ order) → Open st order →
      (∀ k ∈ rest, ClearWalk E order st g.references Source.primary k) →
      (∃ b ∈ rest, ∃ f msg, resolveKey E f g b st = Outcome.panic msg) →
      (∀ k ∈ rest, ∃ f, resolveKey E f g k st ≠ Outcome.overflow) →
      ∃ f0 msg, ∀ f, f0 ≤ f → parseReferences E f g rest st = Outcome.panic msg := by
  intro rest
  induction rest with
  | nil => rintro st _ _ _ ⟨b, hb, _⟩ _; cases hb
  | cons key rest ih =>
    rintro st hsub hopen hwalk ⟨b, hb, fb, msgb, hfb⟩ hfin
    have hkey : key ∈ order := hsub key (List.mem_cons_self _ _)
    obtain ⟨f1, hf1⟩ := hfin key (List.mem_cons_self _ _)
    cases hres : resolveKey E f1 g key st with
    | overflow => exact absurd hres hf1
    | panic msg =>
      refine ⟨f1, msg, fun f hf => ?_⟩
      simp only [parseReferences_step, resolveKey_mono E g key st f1 f _ hres (by simp) hf]
    | ok st1 =>
      obtain ⟨r, rfl, hset⟩ := resolveKey_ok E f1 g hg key st st1 hres
      have hbrest : b ∈ rest := by
        rcases List.mem_cons.mp hb with h | h
        · subst h
          have := resolveKey_det E g b st f1 fb _ _ hres (by simp) hfb (by simp)
          cases this
        · exact h
      have hreads : ∀ k ∈ rest, ∀ f, ∀ x ∈ readsOf E st g.references f Source.primary k,
          ClearOf key x :=
        fun k hk f x hx => hwalk k (List.mem_cons_of_mem _ hk) f x hx key hkey
      obtain ⟨f2, msg, hf2⟩ := ih (st.Set key r)
        (fun k hk => hsub k (List.mem_cons_of_mem _ hk))
        (hopen.after_visit hanti key hkey r)
        (fun k hk => (hwalk k (List.mem_cons_of_mem _ hk)).through_visit key hkey r hset
          (hopen key hkey))
        ⟨b, hbrest, fb, msgb, resolveKey_visit_panic E g hg st key r hset (hopen key hkey)
          fb b msgb (hreads b hbrest) hfb⟩
        (fun k hk => resolveKey_visit_finishes E g hg st key r hset (hopen key hkey) k
          (hreads k hk) (hfin k (List.mem_cons_of_mem _ hk)))
      refine ⟨max f1 f2, msg, fun f hf => ?_⟩
      simp only [parseReferences_step,
        resolveKey_mono E g key st f1 f _ hres (by simp) (le_trans (le_max_left _ _) hf)]
      exact hf2 f (le_trans (le_max_right _ _) hf)

/-! ## The reads of a resolution that finishes -/

/-- A resolution that finishes reads, whatever the depth of the call stack, the
keys it reads at the depth at which it finishes. -/
theorem readsOf_finished (E : Environ) (st : Viper) (refs : GoMap (Option Source)) (n : Nat) :
    ∀ (src : Source) (key : String),
      getValueByReference E st refs n src key ≠ Outcome.overflow →
      ∀ f, ∀ x ∈ readsOf E st refs f src key, x ∈ readsOf E st refs n src key := by
  induction n with
  | zero => intro src key h; simp [getValueByReference] at h
  | succ n ih =>
    intro src key h f x hx
    cases f with
    | zero => simp [readsOf] at hx
    | succ f =>
      rw [readsOf_succ] at hx ⊢
      rcases List.mem_append.mp hx with hx | hx
      · exact List.mem_append_left _ hx
      · refine List.mem_append_right _ ?_
        rw [gvbr_succ] at h
        cases hp : parseReferenceValue ((src.deref st).Get E key) with
        | none => rw [hp] at hx; simp at hx
        | some p =>
          obtain ⟨k, val⟩ := p
          rw [hp] at hx h
          simp only at hx h ⊢
          cases hr : refs.get k with
          | none => rw [hr] at hx; simp at hx
          | some ref =>
            rw [hr] at hx h
            simp only at hx h ⊢
            have hne : (src.deref st).Get E key ≠ Value.null := by
              intro h0; rw [h0, parseReferenceValue_null] at hp; cases hp
            rw [if_neg hne] at h
            exact ih ref val h f x hx

/-- The reads of a resolution that finishes are clear of the listed keys as
soon as they are at the depth at which it finishes. -/
theorem ClearWalk.of_finished {E : Environ} {order : List String} {st : Viper}
    {refs : GoMap (Option Source)} {src : Source} {key : String} (n : Nat)
    (hfin : getValueByReference E st refs n src key ≠ Outcome.overflow)
    (h : ∀ k ∈ readsOf E st refs n src key, Clear order k) :
    ClearWalk E order st refs src key :=
  fun f k hk => h k (readsOf_finished E st refs n src key hfin f k hk)

/-! ## Resolution through construction -/

/-- C1: when the primary key `a` holds the token `${s1:k1}` and following the
tokens from key `k1` of source `s1` through the registry takes `n` hops to a
value `t` that is no reference, then `n ≥ 1` and, provided no two listed keys
are dotted prefix and extension of each other, none lies under a leaf of the
overrides, and the resolution of `a` reads in the primary store only keys that
are clear of the listed ones, every Config that `NewConfig` returns reads
`Get(a) = t` with the keys of the tables in `t` lower-cased (`t` itself when
`t` is no table), and `GetString(a)` is the string form of that value.
`NewConfig` does return, for every deep enough call stack, as soon as each
listed key settles and reads only keys clear of the listed ones. -/
theorem C1_transitive_resolution (E : Environ) (v : Viper)
    (references : GoMap (Option Source)) (order : List String) (a s1 k1 : String)
    (src1 : Source) (n : Nat) (t : Value)
    (hord : order.Perm v.AllKeys) (ha : a ∈ v.AllKeys)
    (hanti : ∀ q ∈ order, Clear order q) (hopen : Open v order)
    (hwalk : ClearWalk E order v (sourceRegistry references) Source.primary a)
    (h0 : v.Get E a = Value.str (token s1 k1))
    (hs : isName s1 = true) (hk : isPath k1 = true)
    (hr : (sourceRegistry references).get s1 = some src1)
    (hc : Chain E v (sourceRegistry references) src1 k1 n t) :
    1 ≤ n ∧
    (∀ fuel c st, NewConfig E fuel order v references = Outcome.ok (c, st) →
      c.Get E a st = Outcome.ok (toCaseInsensitiveValue t) ∧
      c.GetString E a st =
        (match ToStringE (toCaseInsensitiveValue t) with
         | Except.ok s => Outcome.ok s
         | Except.error err => Outcome.panic err)) ∧
    ((∀ k ∈ order, ClearWalk E order v (sourceRegistry references) Source.primary k) →
      (∀ k ∈ order, ∃ r, Settles E v (sourceRegistry references) k r) →
      ∃ f0, ∀ fuel, f0 ≤ fuel → ∃ c st,
        NewConfig E fuel order v references = Outcome.ok (c, st) ∧
        c.Get E a st = Outcome.ok (toCaseInsensitiveValue t)) ∧
    ((∀ tb, t ≠ Value.table tb) → toCaseInsensitiveValue t = t) := by
  have hmem : a ∈ order := hord.mem_iff.mpr ha
  have hp : parseReferenceValue (v.Get E a) = some (s1, k1) := by
    rw [h0]; exact parseReferenceValue_token _ _ hs hk
  have hset : Settles E v (sourceRegistry references) a t :=
    Settles.of_some hp hr ⟨n, hc.to_ok⟩
  have hne : toCaseInsensitiveValue t ≠ Value.null := fun h =>
    (gvbr_terminal E v _ n src1 k1 t hc.to_ok).1 ((toCaseInsensitiveValue_eq_null t).mp h)
  have hget : ∀ fuel c st, NewConfig E fuel order v references = Outcome.ok (c, st) →
      c.Get E a st = Outcome.ok (toCaseInsensitiveValue t) := by
    intro fuel c st h
    rw [NewConfig_ok] at h
    obtain ⟨rfl, h⟩ := h
    rw [Config.Get_root E _ rfl, getValue_ok]
    exact ⟨parseReferences_sound E fuel _ rfl order hanti a hmem v st hopen hwalk t hset h, hne⟩
  refine ⟨hc.pos, fun fuel c st h => ⟨hget fuel c st h, ?_⟩, fun hwalks hall => ?_,
    toCaseInsensitiveValue_leaf t⟩
  · have h1 := hget fuel c st h
    simp only [Config.Get] at h1
    simp only [Config.GetString, getValueT, h1]
    cases ToStringE (toCaseInsensitiveValue t) <;> rfl
  · obtain ⟨f0, hf0⟩ := parseReferences_complete E
      { references := sourceRegistry references, pfx := "" } rfl order hanti order v
      (fun q hq => hq) hopen hwalks hall
    refine ⟨f0, fun fuel hf => ?_⟩
    obtain ⟨st, hst⟩ := hf0 fuel hf
    have hnew : NewConfig E fuel order v references =
        Outcome.ok ({ references := sourceRegistry references, pfx := "" }, st) :=
      (NewConfig_ok E fuel order v references _ st).mpr ⟨rfl, hst⟩
    exact ⟨_, st, hnew, hget fuel _ st hnew⟩

/-- C2: after `NewConfig` returns, for every key that the primary store had at
construction the value that `Get` returns is no reference
(`parseReferenceValue` does not match on it), provided no two of those keys
are dotted prefix and extension of each other and none lies under a leaf of
the overrides. -/
theorem C2_no_reference_left (E : Environ) (fuel : Nat) (v : Viper)
    (references : GoMap (Option Source)) (order : List String) (c : Config) (st : Viper)
    (hord : order.Perm v.AllKeys)
    (hanti : ∀ q ∈ order, Clear order q) (hopen : Open v order)
    (h : NewConfig E fuel order v references = Outcome.ok (c, st)) :
    ∀ k ∈ v.AllKeys, parseReferenceValue (st.Get E k) = none ∧
      ∀ t, c.Get E k st = Outcome.ok t → parseReferenceValue t = none := by
  rw [NewConfig_ok] at h
  obtain ⟨rfl, h⟩ := h
  intro k hk
  obtain ⟨st1, r, _, hset, hget, _⟩ := parseReferences_visited E fuel _ rfl order hanti
    (fun _ => True) (fun _ _ _ _ _ _ _ => trivial) k (hord.mem_iff.mpr hk) v st hopen trivial h
  have hp : parseReferenceValue (st.Get E k) = none := by
    rw [hget, parseReferenceValue_fold]; exact hset.terminal
  refine ⟨hp, fun t ht => ?_⟩
  rw [Config.Get_root E _ rfl, getValue_ok] at ht
  rw [← ht.1]
  exact hp

/-- C3: when the primary key `a` holds a token whose chain reaches, at the
first or a later hop, a source name without a store in the registry or a key
without a value in the named store, then, provided no two listed keys are
dotted prefix and extension of each other, none lies under a leaf of the
overrides, and the resolution of `a` reads in the primary store only keys that
are clear of the listed ones, `NewConfig` returns no Config whatever the depth
of the call stack; and it panics, for every deep enough call stack, as soon as
every listed key reads only such keys and none starts an unbounded
recursion. -/
theorem C3_broken_chain_fatal (E : Environ) (v : Viper)
    (references : GoMap (Option Source)) (order : List String) (a s1 k1 : String)
    (hord : order.Perm v.AllKeys) (ha : a ∈ v.AllKeys)
    (hanti : ∀ q ∈ order, Clear order q) (hopen : Open v order)
    (hwalk : ClearWalk E order v (sourceRegistry references) Source.primary a)
    (h0 : v.Get E a = Value.str (token s1 k1))
    (hs : isName s1 = true) (hk : isPath k1 = true)
    (hb : Breaks E v (sourceRegistry references) s1 k1) :
    (∀ fuel r, NewConfig E fuel order v references ≠ Outcome.ok r) ∧
    ((∀ k ∈ order, ClearWalk E order v (sourceRegistry references) Source.primary k) →
      (∀ k ∈ order, ∃ f,
        resolveKey E f { references := sourceRegistry references, pfx := "" } k v ≠
          Outcome.overflow) →
      ∃ f0 msg, ∀ fuel, f0 ≤ fuel →
        NewConfig E fuel order v references = Outcome.panic msg) := by
  have hmem : a ∈ order := hord.mem_iff.mpr ha
  obtain ⟨fp, msgp, hpanic⟩ := hb.panics a Source.primary h0 hs hk
  constructor
  · rintro fuel ⟨c, st⟩ h
    rw [NewConfig_ok] at h
    obtain ⟨rfl, h⟩ := h
    obtain ⟨r, hset⟩ := parseReferences_settled E fuel _ rfl order hanti a hmem v st hopen
      hwalk h
    obtain ⟨f, hf⟩ := hset.resolves_primary (by rw [h0]; simp)
    have := gvbr_det E v _ f fp _ _ _ _ hf (by simp) hpanic (by simp)
    cases this
  · intro hwalks hfin
    obtain ⟨f0, msg, hf0⟩ := parseReferences_panics E
      { references := sourceRegistry references, pfx := "" } rfl order hanti order v
      (fun q hq => hq) hopen hwalks
      ⟨a, hmem, hb.resolveKey_panics a h0 hs hk⟩ hfin
    refine ⟨f0, msg, fun fuel hf => ?_⟩
    simp only [NewConfig, hf0 fuel hf]

/-- C7: on the store of a Config that `NewConfig` returned, a second run of
`parseReferences` returns, whatever the order in which it lists the keys and
whatever the depth of the call stack, the store as it found it, provided the
keys of the store are then keys it had at construction, no two of which are
dotted prefix and extension of each other and none of which lay under a leaf
of the overrides. -/
theorem C7_second_pass_noop (E : Environ) (fuel : Nat) (v : Viper)
    (references : GoMap (Option Source)) (order : List String) (c : Config) (st : Viper)
    (hord : order.Perm v.AllKeys)
    (hanti : ∀ q ∈ order, Clear order q) (hopen : Open v order)
    (h : NewConfig E fuel order v references = Outcome.ok (c, st))
    (order2 : List String) (hord2 : order2.Perm st.AllKeys)
    (hkeys : ∀ k ∈ st.AllKeys, k ∈ v.AllKeys) (fuel2 : Nat) :
    parseReferences E fuel2 c order2 st = Outcome.ok st := by
  rw [NewConfig_ok] at h
  obtain ⟨rfl, h⟩ := h
  refine parseReferences_fixed E fuel2 _ rfl st order2 (fun k hk => ?_)
  have hk1 : k ∈ order := hord.mem_iff.mpr (hkeys k (hord2.mem_iff.mp hk))
  obtain ⟨st1, r, _, hset, hget, hfix⟩ := parseReferences_visited E fuel _ rfl order hanti
    (fun _ => True) (fun _ _ _ _ _ _ _ => trivial) k hk1 v st hopen trivial h
  rw [hget]
  exact ⟨by rw [parseReferenceValue_fold]; exact hset.terminal, hfix⟩

/-- C10: for any two enumerations of the same keys, no two of which are dotted
prefix and extension of each other, none of which lies under a leaf of the
overrides, and each of which reads, when it is resolved, only keys of the
primary store that are clear of the listed ones: two constructions that both
return give the same Config and the same value under every key that is clear
of the listed ones, each listed key among them; and either both constructions
fail whatever the depth of the call stack, or both return for every deep
enough call stack. -/
theorem C10_order_independent (E : Environ) (v : Viper)
    (references : GoMap (Option Source)) (order1 order2 : List String)
    (hperm : order1.Perm order2)
    (hanti : ∀ q ∈ order1, Clear order1 q) (hopen : Open v order1)
    (hwalk : ∀ k ∈ order1,
      ClearWalk E order1 v (sourceRegistry references) Source.primary k) :
    (∀ f1 f2 c1 st1 c2 st2,
      NewConfig E f1 order1 v references = Outcome.ok (c1, st1) →
      NewConfig E f2 order2 v references = Outcome.ok (c2, st2) →
      c1 = c2 ∧ ∀ k, Clear order1 k →
        st1.Get E k = st2.Get E k ∧ c1.Get E k st1 = c2.Get E k st2) ∧
    (((∀ f r, NewConfig E f order1 v references ≠ Outcome.ok r) ∧
      (∀ f r, NewConfig E f order2 v references ≠ Outcome.ok r)) ∨
     (∃ f0, ∀ f, f0 ≤ f → ∃ c st1 st2,
        NewConfig E f order1 v references = Outcome.ok (c, st1) ∧
        NewConfig E f order2 v references = Outcome.ok (c, st2))) := by
  have hclear2 : ∀ k, Clear order1 k → Clear order2 k :=
    fun k hk q hq => hk q (hperm.mem_iff.mpr hq)
  have hanti2 : ∀ q ∈ order2, Clear order2 q :=
    fun q hq => hclear2 q (hanti q (hperm.mem_iff.mpr hq))
  have hopen2 : Open v order2 := fun q hq => hopen q (hperm.mem_iff.mpr hq)
  have hwalk2 : ∀ k ∈ order2,
      ClearWalk E order2 v (sourceRegistry references) Source.primary k :=
    fun k hk f x hx => hclear2 x (hwalk k (hperm.mem_iff.mpr hk) f x hx)
  constructor
  · intro f1 f2 c1 st1 c2 st2 h1 h2
    rw [NewConfig_ok] at h1 h2
    obtain ⟨rfl, h1⟩ := h1
    obtain ⟨rfl, h2⟩ := h2
    refine ⟨rfl, fun k hk => ?_⟩
    have hag : st1.Get E k = st2.Get E k := by
      by_cases hv : ∃ q ∈ order1, lower q = lower k
      · obtain ⟨q, hq, hl⟩ := hv
        have hq2 : q ∈ order2 := hperm.mem_iff.mp hq
        obtain ⟨r, hset⟩ := parseReferences_settled E f1 _ rfl order1 hanti q hq v st1 hopen
          (hwalk q hq) h1
        rw [Viper.Get_congr E st1 k q hl.symm, Viper.Get_congr E st2 k q hl.symm,
          parseReferences_sound E f1 _ rfl order1 hanti q hq v st1 hopen (hwalk q hq) r hset h1,
          parseReferences_sound E f2 _ rfl order2 hanti2 q hq2 v st2 hopen2 (hwalk2 q hq2) r
            hset h2]
      · have hv1 : ∀ q ∈ order1, lower q ≠ lower k := fun q hq hl => hv ⟨q, hq, hl⟩
        have hv2 : ∀ q ∈ order2, lower q ≠ lower k :=
          fun q hq hl => hv ⟨q, hperm.mem_iff.mpr hq, hl⟩
        rw [parseReferences_frame E f1 _ rfl order1 hanti k hk hv1 v st1 hopen h1,
          parseReferences_frame E f2 _ rfl order2 hanti2 k (hclear2 k hk) hv2 v st2 hopen2 h2]
    exact ⟨hag, by rw [Config.Get_root E _ rfl, Config.Get_root E _ rfl]; simp only [getValue, hag]⟩
  · by_cases hall : ∀ k ∈ order1, ∃ r, Settles E v (sourceRegistry references) k r
    · right
      obtain ⟨fa, hfa⟩ := parseReferences_complete E
        { references := sourceRegistry references, pfx := "" } rfl order1 hanti order1 v
        (fun q hq => hq) hopen hwalk hall
      obtain ⟨fb, hfb⟩ := parseReferences_complete E
        { references := sourceRegistry references, pfx := "" } rfl order2 hanti2 order2 v
        (fun q hq => hq) hopen2 hwalk2 (fun k hk => hall k (hperm.mem_iff.mpr hk))
      refine ⟨max fa fb, fun f hf => ?_⟩
      obtain ⟨st1, h1⟩ := hfa f (le_trans (le_max_left _ _) hf)
      obtain ⟨st2, h2⟩ := hfb f (le_trans (le_max_right _ _) hf)
      exact ⟨_, st1, st2, (NewConfig_ok E f order1 v references _ st1).mpr ⟨rfl, h1⟩,
        (NewConfig_ok E f order2 v references _ st2).mpr ⟨rfl, h2⟩⟩
    · left
      constructor
      · rintro f ⟨c, st⟩ h
        rw [NewConfig_ok] at h
        obtain ⟨rfl, h⟩ := h
        exact hall (fun k hk => parseReferences_settled E f _ rfl order1 hanti k hk v st hopen
          (hwalk k hk) h)
      · rintro f ⟨c, st⟩ h
        rw [NewConfig_ok] at h
        obtain ⟨rfl, h⟩ := h
        exact hall (fun k hk => parseReferences_settled E f _ rfl order2 hanti2 k
          (hperm.mem_iff.mp hk) v st hopen2 (hwalk2 k (hperm.mem_iff.mp hk)) h)

/-! ## The token grammar -/

/-- C4: `parseReferenceValue` matches on strings that hold text around a token
and on strings that hold two tokens, and returns as source name and key path
the whole string with each token replaced by its group.  On the text
`x${a:b}y` it reports a match with the names `xay` and `xby`, and on
`${a:b}${c:d}` a match with the names `ac` and `bd`. -/
theorem C4_match_is_not_anchored :
    parseReferenceValue (Value.str "x$\x7ba:b\x7dy") = some ("xay", "xby") ∧
    parseReferenceValue (Value.str "$\x7ba:b\x7d$\x7bc:d\x7d") = some ("ac", "bd") := by
  decide

/-! ## Prefix views -/

theorem append_dot_ne_empty (q p : String) : q ++ "." ++ p ≠ "" := by
  intro h
  have := congrArg String.length h
  simp only [String.length_append] at this
  have h1 : ".".length = 1 := by decide
  have h2 : "".length = 0 := by decide
  omega

theorem Config.Of_key (g : Config) (p k : String) (hp : p ≠ "") :
    (g.Of p).key k = g.key (p ++ "." ++ k) := by
  by_cases hq : g.pfx = ""
  · simp [Config.Of, Config.key, hq, hp]
  · have h1 : g.pfx ++ "." ++ p ≠ "" := append_dot_ne_empty _ _
    simp only [Config.Of, Config.key]
    rw [if_pos hq, if_pos h1, if_pos hq]
    simp only [String.append_assoc]

/-- C5: for a root Config, every key `k` and every non-empty prefix `p`,
`root.GetString(p + "." + k)` and `root.Of(p).GetString(k)` have the same
outcome and `Of(p).key(k)` is `p + "." + k`; for the empty prefix
`Of("").key(k)` is `k`, and `root.Of("").GetString(k)` has the outcome of
`root.GetString(k)`. -/
theorem C5_view_key_equivalence (E : Environ) (st : Viper) (root : Config) (p k : String)
    (hroot : root.pfx = "") :
    (p ≠ "" →
      root.GetString E (p ++ "." ++ k) st = (root.Of p).GetString E k st ∧
      (root.Of p).key k = p ++ "." ++ k) ∧
    ((root.Of "").key k = k ∧
      (root.Of "").GetString E k st = root.GetString E k st) := by
  constructor
  · intro hp
    have hkey : (root.Of p).key k = p ++ "." ++ k := by
      rw [Config.Of_key root p k hp, Config.key_root root hroot]
    exact ⟨by simp only [Config.GetString, hkey, Config.key_root root hroot], hkey⟩
  · have hkey : (root.Of "").key k = k := by simp [Config.Of, Config.key, hroot]
    exact ⟨hkey, by simp only [Config.GetString, hkey, Config.key_root root hroot]⟩

/-- C9: a view made with `Of` reads and writes the store of its parent under
the composed key: for every Config `c`, non-empty prefix `p`, key `k` and
non-nil value `x`, the view has the registry of `c`, it reads what `c` reads
under `p + "." + k`, a write `c.Of(p).Set(k, x)` is read back by
`c.Get(p + "." + k)`, and a write `c.Set(p + "." + k, x)` is read back by
`c.Of(p).Get(k)`; what is read back is `x` with the keys of its tables
lower-cased, which is `x` when `x` is no table. -/
theorem C9_view_shares_store (E : Environ) (c : Config) (p k : String) (x : Value)
    (st : Viper) (hp : p ≠ "") (hx : x ≠ Value.null) :
    (c.Of p).references = c.references ∧
    (c.Of p).Get E k st = c.Get E (p ++ "." ++ k) st ∧
    c.Get E (p ++ "." ++ k) ((c.Of p).Set k x st) = Outcome.ok (toCaseInsensitiveValue x) ∧
    (c.Of p).Get E k (c.Set (p ++ "." ++ k) x st) = Outcome.ok (toCaseInsensitiveValue x) ∧
    ((∀ tb, x ≠ Value.table tb) → toCaseInsensitiveValue x = x) := by
  have hkey := Config.Of_key c p k hp
  have hne : toCaseInsensitiveValue x ≠ Value.null := fun h =>
    hx ((toCaseInsensitiveValue_eq_null x).mp h)
  have hread : getValue E (st.Set (c.key (p ++ "." ++ k)) x) (c.key (p ++ "." ++ k)) =
      Outcome.ok (toCaseInsensitiveValue x) :=
    (getValue_ok E _ _ _).mpr ⟨Viper.Get_Set_same E st _ _ x hx rfl, hne⟩
  refine ⟨rfl, ?_, ?_, ?_, toCaseInsensitiveValue_leaf x⟩
  · simp only [Config.Get, hkey]
  · simp only [Config.Get, Config.Set, hkey]; exact hread
  · simp only [Config.Get, Config.Set, hkey]; exact hread

/-! ## Defaults and overrides -/

theorem Viper.findAboveDefaults_SetDefault (E : Environ) (st : Viper) (key : String)
    (y : Value) (lk : String) :
    (st.SetDefault key y).findAboveDefaults E lk = st.findAboveDefaults E lk := rfl

/-- What `Get` returns after two calls of `SetDefault` on its key. -/
theorem Viper.Get_SetDefault_twice (E : Environ) (st : Viper) (key : String) (y1 y2 : Value) :
    ((st.SetDefault key y1).SetDefault key y2).Get E key =
      match st.findAboveDefaults E (lower key) with
      | some z => z
      | none => toCaseInsensitiveValue y2 := by
  simp only [Viper.Get, Viper.find, Viper.findAboveDefaults_SetDefault]
  cases st.findAboveDefaults E (lower key) with
  | some z => rfl
  | none =>
    simp only [Viper.SetDefault]
    exact searchMap_deepSet_self _ (keyPath_ne_nil key) _ _

/-- C6: for every Config and key `x`, after `SetDefault(x, v1)` followed by
`SetDefault(x, v2)` the call `Get(x)` returns the value that `x` has in the
layers above the defaults (overrides, environment, loaded configuration) when
it has one there, fails when one of those layers holds a leaf on the path of
`x`, and returns `v2`, the later default, otherwise; and after a later
`Set(x, v3)` it returns `v3`.  The values `v2` and `v3` are not `nil`, and a
table is returned with its keys lower-cased. -/
theorem C6_setDefault_then_set (E : Environ) (c : Config) (x : String) (st : Viper)
    (v1 v2 v3 : Value) (h2 : v2 ≠ Value.null) (h3 : v3 ≠ Value.null) :
    c.Get E x (c.SetDefault x v2 (c.SetDefault x v1 st)) =
      (match st.findAboveDefaults E (lower (c.key x)) with
       | some Value.null => Outcome.panic ("key not found in config " ++ c.key x)
       | some y => Outcome.ok y
       | none => Outcome.ok (toCaseInsensitiveValue v2)) ∧
    c.Get E x (c.Set x v3 (c.SetDefault x v2 (c.SetDefault x v1 st))) =
      Outcome.ok (toCaseInsensitiveValue v3) := by
  constructor
  · simp only [Config.Get, Config.SetDefault, getValue, Viper.Get_SetDefault_twice]
    cases st.findAboveDefaults E (lower (c.key x)) with
    | some z => cases z <;> rfl
    | none =>
      simp only
      have hne : toCaseInsensitiveValue v2 ≠ Value.null := fun h =>
        h2 ((toCaseInsensitiveValue_eq_null v2).mp h)
      cases hv : toCaseInsensitiveValue v2 <;> first | rfl | exact absurd hv hne
  · simp only [Config.Get, Config.Set]
    exact (getValue_ok E _ _ _).mpr ⟨Viper.Get_Set_same E _ _ _ v3 h3 rfl,
      fun h => h3 ((toCaseInsensitiveValue_eq_null v3).mp h)⟩

/-! ## The registry -/

theorem sourceRegistry_eq (references : GoMap (Option Source)) :
    sourceRegistry references =
      references ++ [("this", some Source.primary), ("env", some (Source.other newEnvViper))] := by
  unfold sourceRegistry
  induction references with
  | nil => rfl
  | cons e rest ih =>
    simp only [List.foldr_cons, GoMap.set, List.cons_append] at ih ⊢
    rw [ih]

theorem lookup_append {β : Type} (k : String) (l1 l2 : List (String × β)) :
    List.lookup k (l1 ++ l2) =
      match List.lookup k l1 with
      | some x => some x
      | none => List.lookup k l2 := by
  induction l1 with
  | nil => rfl
  | cons e rest ih =>
    obtain ⟨k2, x⟩ := e
    simp only [List.cons_append, List.lookup]
    cases k == k2 with
    | true => rfl
    | false => exact ih

/-- C8: the registry that `NewConfig` builds binds `this` to the entry of that
name in the auxiliaries mapping when there is one, and to the primary store
otherwise; it binds `env` to the entry of that name in the auxiliaries mapping
when there is one, and to the environment-backed store otherwise.  A key that
holds the token `${this:k}` is resolved by a lookup of `k` in the primary
store when the auxiliaries mapping has no entry named `this`. -/
theorem C8_reserved_names (E : Environ) (references : GoMap (Option Source)) :
    (sourceRegistry references).get "this" =
      (match List.lookup "this" references with
       | some p => p
       | none => some Source.primary) ∧
    (sourceRegistry references).get "env" =
      (match List.lookup "env" references with
       | some p => p
       | none => some (Source.other newEnvViper)) ∧
    (List.lookup "this" references = none →
      ∀ (fuel : Nat) (st : Viper) (key k : String), isPath k = true →
        st.Get E key = Value.str (token "this" k) →
        resolveKey E fuel { references := sourceRegistry references, pfx := "" } key st =
          match getValueByReference E st (sourceRegistry references) fuel Source.primary k with
          | Outcome.ok t => Outcome.ok (st.Set key t)
          | Outcome.panic msg => Outcome.panic msg
          | Outcome.overflow => Outcome.overflow) := by
  have h1 : (sourceRegistry references).get "this" =
      (match List.lookup "this" references with
       | some p => p
       | none => some Source.primary) := by
    rw [sourceRegistry_eq]
    unfold GoMap.get
    rw [lookup_append]
    cases List.lookup "this" references with
    | some p => rfl
    | none => rfl
  refine ⟨h1, ?_, ?_⟩
  · rw [sourceRegistry_eq]
    unfold GoMap.get
    rw [lookup_append]
    cases List.lookup "env" references with
    | some p => rfl
    | none => rfl
  · intro hnone fuel st key k hk hg
    rw [hnone] at h1
    simp only [resolveKey, hg, parseReferenceValue_token "this" k (by decide) hk, h1,
      Config.Set, Config.key]
    rfl

/-! ## The claims on concrete stores -/

/-- C1 on the stores of the specification: `a = ${x:k1}`, `x.k1 = ${y:k2}`,
`y.k2 = final`, and the one-hop case `a = ${other:b}`, `other.b = 42`. -/
theorem C1_witness :
    NewConfig [] 3 ["a"] exPrimary exRefs = Outcome.ok (exConfig, exResolved) ∧
    exConfig.Get [] "a" exResolved = Outcome.ok (Value.str "final") ∧
    (∃ f0, ∀ fuel, f0 ≤ fuel → ∃ c st,
      NewConfig [] fuel ["a"] exPrimary exRefs = Outcome.ok (c, st) ∧
      c.Get [] "a" st = Outcome.ok (Value.str "final")) ∧
    exOneHopConfig.GetString [] "a" exOneHopResolved = Outcome.ok "42" :=
  have hw : ClearWalk [] ["a"] exPrimary (sourceRegistry exRefs) Source.primary "a" :=
    ClearWalk.of_finished 3 (by decide) (by decide)
  have h := C1_transitive_resolution [] exPrimary exRefs ["a"] "a" "x" "k1" (Source.other exX)
    2 (Value.str "final") (by decide) (by decide) (by decide) (by decide) hw
    (by decide) (by decide) (by decide) (by decide)
    (@Chain.hop [] exPrimary (sourceRegistry exRefs) (Source.other exX) (Source.other exY)
      "k1" "y" "k2" 1 (Value.str "final") (by decide) (by decide) (by decide) (by decide)
      (Chain.last (by decide) (by decide) (by decide)))
  have hp : parseReferenceValue (exPrimary.Get [] "a") = some ("x", "k1") := by decide
  ⟨by decide,
    (h.2.1 3 exConfig exResolved (by decide)).1,
    h.2.2.1 (fun k hk => by rw [List.mem_singleton.mp hk]; exact hw)
      (fun k hk => ⟨Value.str "final", by
        rw [List.mem_singleton.mp hk]
        exact @Settles.of_some [] exPrimary (sourceRegistry exRefs) "a" "x" "k1"
          (Source.other exX) (Value.str "final") hp (by decide) ⟨2, by decide⟩⟩),
    ((C1_transitive_resolution [] exOneHop exOneHopRefs ["a"] "a" "other" "b"
      (Source.other exOther) 1 (Value.str "42") (by decide) (by decide)
      (by decide) (by decide) (ClearWalk.of_finished 2 (by decide) (by decide))
      (by decide) (by decide) (by decide) (by decide)
      (Chain.last (by decide) (by decide) (by decide))).2.1
      3 exOneHopConfig exOneHopResolved (by decide)).2⟩

/-- The claim of C1 fails on a store with a table: `a = ${this:srv}` reaches in
one hop the table `srv`, which is no reference and holds `addr = ${x:k}`; when
the pass visits `srv.addr` before `a`, `Get(a)` is the table with
`addr = v`. -/
theorem C1_counterexample :
    exNested.Get [] "a" = Value.str (token "this" "srv") ∧
    (sourceRegistry exNestedRefs).get "this" = some Source.primary ∧
    Chain [] exNested (sourceRegistry exNestedRefs) Source.primary "srv" 1 exSrv ∧
    ["srv.addr", "a"].Perm exNested.AllKeys ∧
    NewConfig [] 3 ["srv.addr", "a"] exNested exNestedRefs =
      Outcome.ok (exNestedConfig, exNestedSA) ∧
    exNestedConfig.Get [] "a" exNestedSA = Outcome.ok exSrvResolved ∧
    exSrvResolved ≠ exSrv :=
  ⟨by decide, by decide, Chain.last (by decide) (by decide) (by decide), by decide, by decide,
    by decide, by decide⟩

/-- C2 on the stores of the specification: the value left under `a` is no
reference. -/
theorem C2_witness :
    parseReferenceValue (exResolved.Get [] "a") = none ∧
    ∀ t, exConfig.Get [] "a" exResolved = Outcome.ok t → parseReferenceValue t = none :=
  C2_no_reference_left [] 3 exPrimary exRefs ["a"] exConfig exResolved (by decide) (by decide)
    (by decide) (by decide) "a" (by decide)

/-- The claim of C2 fails on a store with a table: when the pass visits `a`
before `srv.addr`, the store that `NewConfig` returns has the key `a.addr`,
and `Get` returns the reference `${x:k}` for it. -/
theorem C2_counterexample :
    ["a", "srv.addr"] = exNested.AllKeys ∧
    NewConfig [] 3 ["a", "srv.addr"] exNested exNestedRefs =
      Outcome.ok (exNestedConfig, exNestedAS) ∧
    "a.addr" ∈ exNestedAS.AllKeys ∧
    exNestedConfig.Get [] "a.addr" exNestedAS = Outcome.ok (Value.str (token "x" "k")) ∧
    parseReferenceValue (Value.str (token "x" "k")) = some ("x", "k") := by
  decide

/-- C3 on a store whose key `a` names the unregistered source `zz`. -/
theorem C3_witness :
    NewConfig [] 3 ["a"] exBroken [] ≠ Outcome.ok (exRoot, exBroken) ∧
    (∃ f0 msg, ∀ fuel, f0 ≤ fuel → NewConfig [] fuel ["a"] exBroken [] = Outcome.panic msg) ∧
    NewConfig [] 3 ["a"] exBroken [] = Outcome.panic "no reference found for: zz" :=
  have hw : ClearWalk [] ["a"] exBroken (sourceRegistry []) Source.primary "a" :=
    ClearWalk.of_finished 1 (by decide) (by decide)
  have h := C3_broken_chain_fatal [] exBroken [] ["a"] "a" "zz" "k" (by decide) (by decide)
    (by decide) (by decide) hw (by decide) (by decide) (by decide)
    (Breaks.noSource (by decide))
  ⟨h.1 3 (exRoot, exBroken),
    h.2 (fun k hk => by rw [List.mem_singleton.mp hk]; exact hw)
      (fun k hk => ⟨1, by rw [List.mem_singleton.mp hk]; decide⟩),
    by decide⟩

/-- The claim of C3 fails when the broken chain reads a key under a listed
one: `a = ${this:k.x}` names the key `k.x`, which has no value in the primary
store, and `k = ${other:tbl}`; when the pass visits `k` before `a`, the table
that `k` resolves to gives `k.x` a value and `NewConfig` returns. -/
theorem C3_counterexample :
    exLate.Get [] "a" = Value.str (token "this" "k.x") ∧
    Breaks [] exLate (sourceRegistry exLateRefs) "this" "k.x" ∧
    ["k", "a"].Perm exLate.AllKeys ∧
    NewConfig [] 3 ["k", "a"] exLate exLateRefs =
      Outcome.ok ({ references := sourceRegistry exLateRefs, pfx := "" }, exLateKA) ∧
    exLateKA.Get [] "a" = Value.str "v" :=
  ⟨by decide,
    @Breaks.noKey [] exLate (sourceRegistry exLateRefs) "this" "k.x" Source.primary
      (by decide) (by decide),
    by decide, by decide, by decide⟩

/-- C5 at the prefix `server` and the key `addr`. -/
theorem C5_witness :
    exRoot.GetString [] ("server" ++ "." ++ "addr")
        (storeOf [("server.addr", Value.str ":8080")]) =
      (exRoot.Of "server").GetString [] "addr"
        (storeOf [("server.addr", Value.str ":8080")]) ∧
    (exRoot.Of "server").key "addr" = "server" ++ "." ++ "addr" :=
  (C5_view_key_equivalence [] (storeOf [("server.addr", Value.str ":8080")]) exRoot "server"
    "addr" rfl).1 (by decide)

/-- The claim of C5 fails at the empty prefix: the view `Of("")` reads key `a`,
the root reads key `.a`. -/
theorem C5_counterexample :
    (exRoot.Of "").GetString [] "a" (storeOf [("a", Value.str "v")]) = Outcome.ok "v" ∧
    exRoot.GetString [] ("" ++ "." ++ "a") (storeOf [("a", Value.str "v")]) =
      Outcome.panic "key not found in config .a" ∧
    (exRoot.Of "").key "a" ≠ "" ++ "." ++ "a" := by
  decide

/-- C6 on an empty store, where the later default is read, and on a store
whose configuration holds a leaf under `a`, where `Get("a.b")` fails. -/
theorem C6_witness :
    (exRoot.Get [] "x" (exRoot.SetDefault "x" (Value.int 2)
        (exRoot.SetDefault "x" (Value.int 1) Viper.New)) = Outcome.ok (Value.int 2) ∧
      exRoot.Get [] "x" (exRoot.Set "x" (Value.int 2) (exRoot.SetDefault "x" (Value.int 2)
        (exRoot.SetDefault "x" (Value.int 1) Viper.New))) = Outcome.ok (Value.int 2)) ∧
    exRoot.Get [] "a.b" (exRoot.SetDefault "a.b" (Value.int 2)
        (exRoot.SetDefault "a.b" (Value.int 1) exLeaf)) =
      Outcome.panic "key not found in config a.b" :=
  ⟨C6_setDefault_then_set [] exRoot "x" Viper.New (Value.int 1) (Value.int 2) (Value.int 2)
      (by decide) (by decide),
    (C6_setDefault_then_set [] exRoot "a.b" exLeaf (Value.int 1) (Value.int 2) (Value.int 2)
      (by decide) (by decide)).1⟩

/-- The claim of C6 fails on an empty store: after `SetDefault(x, 1)` and
`SetDefault(x, 2)`, `Get(x)` is 2. -/
theorem C6_counterexample :
    exRoot.Get [] "x" (exRoot.SetDefault "x" (Value.int 2)
      (exRoot.SetDefault "x" (Value.int 1) Viper.New)) = Outcome.ok (Value.int 2) ∧
    exRoot.Get [] "x" (exRoot.SetDefault "x" (Value.int 2)
      (exRoot.SetDefault "x" (Value.int 1) Viper.New)) ≠ Outcome.ok (Value.int 1) := by
  decide

/-- C7 on the stores of the specification: a second pass over the resolved
store. -/
theorem C7_witness :
    parseReferences [] 0 exConfig ["a"] exResolved = Outcome.ok exResolved :=
  C7_second_pass_noop [] 3 exPrimary exRefs ["a"] exConfig exResolved (by decide) (by decide)
    (by decide) (by decide) ["a"] (by decide) (by decide) 0

/-- The claim of C7 fails on a store with a table: after a pass that visits
`a` before `srv.addr` the store has the key `a.addr`, which reads the
reference `${x:k}`, and a second pass over the keys of that store rewrites it
to `v`. -/
theorem C7_counterexample :
    NewConfig [] 3 ["a", "srv.addr"] exNested exNestedRefs =
      Outcome.ok (exNestedConfig, exNestedAS) ∧
    exNestedAS.AllKeys = ["a.addr", "srv.addr", "a"] ∧
    parseReferences [] 3 exNestedConfig ["a.addr", "srv.addr", "a"] exNestedAS =
      Outcome.ok exNestedTwice ∧
    exNestedAS.Get [] "a.addr" = Value.str (token "x" "k") ∧
    exNestedTwice.Get [] "a.addr" = Value.str "v" ∧
    exNestedTwice ≠ exNestedAS := by
  decide

/-- C8 on an auxiliaries mapping without an entry `this`. -/
theorem C8_witness :
    resolveKey [] 3 { references := sourceRegistry exRefs, pfx := "" } "a" exTwo =
      match getValueByReference [] exTwo (sourceRegistry exRefs) 3 Source.primary "b" with
      | Outcome.ok t => Outcome.ok (exTwo.Set "a" t)
      | Outcome.panic msg => Outcome.panic msg
      | Outcome.overflow => Outcome.overflow :=
  (C8_reserved_names [] exRefs).2.2 (by decide) 3 exTwo "a" "b" (by decide) (by decide)

/-- The claim of C8 fails on an auxiliaries mapping with an entry `this`: the
registry binds `this` to that entry, and `${this:k}` reads its key `k`. -/
theorem C8_counterexample :
    (sourceRegistry exThisRefs).get "this" ≠ some Source.primary ∧
    NewConfig [] 3 ["a", "k"] exThis exThisRefs =
      Outcome.ok ({ references := sourceRegistry exThisRefs, pfx := "" },
        (exThis.Set "a" (Value.str "o")).Set "k" (Value.str "p")) := by
  decide

/-- C9 at the prefix `server` and the key `addr`. -/
theorem C9_witness :
    (exRoot.Of "server").references = exRoot.references ∧
    (exRoot.Of "server").Get [] "addr" Viper.New =
      exRoot.Get [] ("server" ++ "." ++ "addr") Viper.New ∧
    exRoot.Get [] ("server" ++ "." ++ "addr")
      ((exRoot.Of "server").Set "addr" (Value.str ":8080") Viper.New) =
        Outcome.ok (Value.str ":8080") ∧
    (exRoot.Of "server").Get [] "addr"
      (exRoot.Set ("server" ++ "." ++ "addr") (Value.str ":8080") Viper.New) =
        Outcome.ok (Value.str ":8080") :=
  have h := C9_view_shares_store [] exRoot "server" "addr" (Value.str ":8080") Viper.New
    (by decide) (by decide)
  ⟨h.1, h.2.1, h.2.2.1, h.2.2.2.1⟩

/-- The claim of C9 fails on a value that is a table with an upper-case key:
the write `Of("server").Set("tls", {Addr: 1})` is read back by
`Get("server.tls")` as `{addr: 1}`. -/
theorem C9_counterexample :
    exRoot.Get [] ("server" ++ "." ++ "tls")
      ((exRoot.Of "server").Set "tls" exUpper Viper.New) = Outcome.ok exUpperFolded ∧
    exUpperFolded ≠ exUpper := by
  decide

/-- C10 on a store whose key `a` refers to its own key `b`: visiting `a` then
`b`, and `b` then `a`. -/
theorem C10_witness :
    exConfig = exConfig ∧
    exTwoAB.Get [] "a" = exTwoBA.Get [] "a" ∧
    exConfig.Get [] "a" exTwoAB = exConfig.Get [] "a" exTwoBA :=
  have h1 : ∀ k ∈ ["a", "b"], getValueByReference [] exTwo (sourceRegistry exRefs) 4
      Source.primary k ≠ Outcome.overflow := by decide
  have h2 : ∀ k ∈ ["a", "b"], ∀ x ∈ readsOf [] exTwo (sourceRegistry exRefs) 4
      Source.primary k, Clear ["a", "b"] x := by decide
  have h := (C10_order_independent [] exTwo exRefs ["a", "b"] ["b", "a"] (by decide)
    (by decide) (by decide) (fun k hk => ClearWalk.of_finished 4 (h1 k hk) (h2 k hk))).1
    3 3 exConfig exTwoAB exConfig exTwoBA (by decide) (by decide)
  ⟨h.1, h.2 "a" (by decide)⟩

/-- The claim of C10 fails on a store with a table: the pass that visits `a`
before `srv.addr` and the pass that visits `srv.addr` before `a` both return,
and `Get(a)` is the table with `addr = ${x:k}` after the first and the table
with `addr = v` after the second. -/
theorem C10_counterexample :
    ["a", "srv.addr"].Perm ["srv.addr", "a"] ∧
    NewConfig [] 3 ["a", "srv.addr"] exNested exNestedRefs =
      Outcome.ok (exNestedConfig, exNestedAS) ∧
    NewConfig [] 3 ["srv.addr", "a"] exNested exNestedRefs =
      Outcome.ok (exNestedConfig, exNestedSA) ∧
    exNestedAS.Get [] "a" = exSrv ∧
    exNestedSA.Get [] "a" = exSrvResolved ∧
    exSrv ≠ exSrvResolved := by
  decide

end Chaki
